import Mathlib

/-! Verification development for the logseq2notion-migrator repository.

The Python sources `logseq_to_notion_converter.py` and
`logseq_to_team_template_converter.py` are shallowly embedded below.
Python strings are modelled as Lean strings (sequences of unicode scalar
values, as in Python).  The regular-expression substitutions the code
performs are embedded as deterministic scanners with the semantics of
Python `re.sub`: leftmost non-overlapping matches, scanning forward one
character at a time; for each of the concrete patterns used by the code,
greedy matching with backtracking is deterministic because every
backtracking step would place a required literal on a character excluded
by the preceding character class (this is argued at each matcher).
Uncaught Python exceptions are modelled with `Except`, filesystem writes
with a boolean oracle, and log output with a structured event list. -/

namespace L2N

/-- Python `\s` on the ASCII range (the whitespace characters relevant to
the inputs considered here). -/
def pyIsSpace (c : Char) : Bool :=
  c = ' ' || c = '\t' || c = '\n' || c = '\r' || c = '\x0b' || c = '\x0c'

/-- Python `\d` on the ASCII range. -/
def isDigitCh (c : Char) : Bool := '0' ≤ c && c ≤ '9'

/-- the character class `[a-f0-9-]` of the block-reference pattern -/
def isBlockRefCh (c : Char) : Bool :=
  ('a' ≤ c && c ≤ 'f') || isDigitCh c || c = '-'

/-- the character class `[a-zA-Z-]` of the property-line pattern -/
def isPropKeyCh (c : Char) : Bool :=
  ('a' ≤ c && c ≤ 'z') || ('A' ≤ c && c ≤ 'Z') || c = '-'

/-- the path-hostile characters of `sanitize_filename`: the class
`[<>:"/\\|?*]` -/
def isHostileCh (c : Char) : Bool :=
  c = '<' || c = '>' || c = ':' || c = '"' || c = '/' || c = '\\' ||
  c = '|' || c = '?' || c = '*'

/-- the characters stripped by `.strip('. ')` -/
def isDotSpace (c : Char) : Bool := c = '.' || c = ' '

/-- `sanitize_filename` (identical in both converters):
`re.sub(r'[<>:"/\\|?*]', '_', filename)` followed by `.strip('. ')`. -/
def sanitize_filename (s : String) : String :=
  ⟨(((s.data.map (fun c => if isHostileCh c then '_' else c)).dropWhile
      isDotSpace).reverse.dropWhile isDotSpace).reverse⟩

/-- `create_notion_filename` (both converters; the notion converter reads
`self.generate_uuid`, the team converter `self.with_uuid`):
`f"{clean_name} {page_uuid}.md"` when the flag is set, else
`f"{clean_name}.md"`. -/
def create_notion_filename (withUuid : Bool) (page_name page_uuid : String) : String :=
  if withUuid then sanitize_filename page_name ++ " " ++ page_uuid ++ ".md"
  else sanitize_filename page_name ++ ".md"

/-- a `page_mapping` value: the tuple `(notion_filename, page_uuid)` -/
abbrev RegEntry := String × String

/-- `page_mapping`: one Python dict shared by the pages and journals
scans, modelled as an insertion-ordered association list with unique
keys. -/
abbrev Registry := List (String × RegEntry)

/-- Python dict assignment `d[k] = v`: overwrites in place if the key
exists, else appends the fresh key at the end. -/
def dinsert (k : String) (v : RegEntry) : Registry → Registry
  | [] => [(k, v)]
  | (k', v') :: t => if k' = k then (k, v) :: t else (k', v') :: dinsert k v t

/-- Python dict lookup `d[k]` / `k in d`. -/
def dlookup (k : String) : Registry → Option RegEntry
  | [] => none
  | (k', v') :: t => if k' = k then some v' else dlookup k t

/-- `re.match(r'\d{4}_\d{2}_\d{2}', s)`: `re.match` anchors only at the
start, so this is a prefix match — four digits, underscore, two digits,
underscore, two digits, with arbitrary trailing text accepted. -/
def datePrefixMatch (s : String) : Bool :=
  match s.data with
  | y1 :: y2 :: y3 :: y4 :: u1 :: m1 :: m2 :: u2 :: d1 :: d2 :: _ =>
    isDigitCh y1 && isDigitCh y2 && isDigitCh y3 && isDigitCh y4 && u1 = '_' &&
    isDigitCh m1 && isDigitCh m2 && u2 = '_' && isDigitCh d1 && isDigitCh d2
  | _ => false

/-- Python `str.split(sep)` with a single-character separator: split at
every occurrence, keeping empty parts. -/
def splitOnChar (sep : Char) : List Char → List (List Char)
  | [] => [[]]
  | c :: t =>
    if c = sep then [] :: splitOnChar sep t
    else
      match splitOnChar sep t with
      | w :: ws => (c :: w) :: ws
      | [] => [[c]]

/-- `s.split(sep)` on strings -/
def pySplit (sep : Char) (s : String) : List String :=
  (splitOnChar sep s.data).map (fun w => (⟨w⟩ : String))

/-- the uncaught Python exceptions the embedded code can raise -/
inductive PyErr
  /-- `self.generate_uuid()` where the attribute holds a bool: `__init__`
  (line 33) stored the constructor parameter over the method of the same
  name, so the call raises `TypeError` -/
  | typeErrorBoolNotCallable
  /-- `year, month, day = date_str.split('_')` with a split of length
  other than three raises `ValueError` -/
  | valueErrorUnpack
  deriving DecidableEq, Repr

/-- the journal-name branch of `scan_pages` (notion converter, lines
133-139): prefix-match the date pattern, then unpack
`date_str.split('_')` into three variables (raising `ValueError` for any
other arity), and display `f"{year}年{month}月{day}日"`; non-matching
stems keep the raw stem as display name. -/
def journal_display (date_str : String) : Except PyErr String :=
  if datePrefixMatch date_str then
    match pySplit '_' date_str with
    | [y, m, d] => .ok (y ++ "年" ++ m ++ "月" ++ d ++ "日")
    | _ => .error .valueErrorUnpack
  else
    .ok date_str

/-- one `pages/*.md` iteration of `scan_pages`: the line
`page_uuid = self.generate_uuid() if self.generate_uuid else ""` calls
the boolean attribute when the flag is set (a `TypeError`), else uses
the empty string; then `create_notion_filename` and the dict
assignment. -/
def scan_one_page (generate_uuid : Bool) (reg : Registry) (page_name : String) :
    Except PyErr Registry :=
  if generate_uuid then .error .typeErrorBoolNotCallable
  else .ok (dinsert page_name (create_notion_filename generate_uuid page_name "", "") reg)

/-- one `journals/*.md` iteration of `scan_pages`: the date conversion
runs first (lines 134-139), then the uuid line, then the dict assignment
keyed by the raw stem. -/
def scan_one_journal (generate_uuid : Bool) (reg : Registry) (date_str : String) :
    Except PyErr Registry := do
  let page_name ← journal_display date_str
  if generate_uuid then .error .typeErrorBoolNotCallable
  else .ok (dinsert date_str (create_notion_filename generate_uuid page_name "", "") reg)

/-- left fold of a fallible scan step over a list of file stems -/
def scanFold (step : Registry → String → Except PyErr Registry) :
    Registry → List String → Except PyErr Registry
  | reg, [] => .ok reg
  | reg, s :: rest => do scanFold step (← step reg s) rest

/-- `scan_pages` (notion converter): the `pages/*.md` loop, then the
`journals/*.md` loop, over the file stems in scan order, building the
single `page_mapping` dict. -/
def scan_pages (generate_uuid : Bool) (pages journals : List String) :
    Except PyErr Registry := do
  let reg ← scanFold (scan_one_page generate_uuid) [] pages
  scanFold (scan_one_journal generate_uuid) reg journals

/-- an uppercase hex digit -/
def hexUpper (n : Nat) : Char :=
  if n < 10 then Char.ofNat ('0'.toNat + n) else Char.ofNat ('A'.toNat + n - 10)

/-- whether `urllib.parse.quote` leaves a byte unencoded: letters, digits
and `_.-~` are never quoted, plus the bytes of the `safe` parameter. -/
def byteSafe (safe : List Char) (n : Nat) : Bool :=
  (65 ≤ n && n ≤ 90) || (97 ≤ n && n ≤ 122) || (48 ≤ n && n ≤ 57) ||
  n = 95 || n = 46 || n = 45 || n = 126 || safe.any (fun c => c.toNat = n)

/-- the UTF-8 encoding of one code point, as byte values -/
def utf8Bytes (c : Char) : List Nat :=
  if c.toNat < 128 then [c.toNat]
  else if c.toNat < 2048 then
    [192 + c.toNat / 64, 128 + c.toNat % 64]
  else if c.toNat < 65536 then
    [224 + c.toNat / 4096, 128 + (c.toNat / 64) % 64, 128 + c.toNat % 64]
  else
    [240 + c.toNat / 262144, 128 + (c.toNat / 4096) % 64,
     128 + (c.toNat / 64) % 64, 128 + c.toNat % 64]

/-- `urllib.parse.quote(s, safe)`: UTF-8 encode, keep safe bytes,
percent-encode the rest with uppercase hex.  The notion converter calls
it with `safe=''`; the team converter with the default `safe='/'`. -/
def pyQuote (safe : List Char) (s : String) : String :=
  ⟨((s.data.map utf8Bytes).flatten.map (fun n =>
      if byteSafe safe n then [Char.ofNat n]
      else ['%', hexUpper (n / 16), hexUpper (n % 16)])).flatten⟩

/-- the log calls of the embedded code, as structured events (the source
formats them as Chinese strings with the relevant name interpolated) -/
inductive LogEvent
  /-- notion `convert_links`: warning for a `[[...]]` name missing from
  `page_mapping` -/
  | pageNotFound (page_name : String)
  /-- notion `convert_file`: the whole read-convert-write is wrapped in
  try/except; a failure is logged and swallowed -/
  | convertFileFailed (source : String)
  /-- notion `convert_file`: success log -/
  | convertFileDone (source : String)
  /-- team `create_notion_page`: a write failure is logged and
  swallowed -/
  | writePageFailed (filename : String)
  /-- team `process_page_file`: a read failure is logged and the file is
  skipped before any mapping entry is made -/
  | readFileFailed (source : String)
  /-- team `process_page_file`: `contents.md` is skipped -/
  | skippedContents
  /-- team `process_page_file`: per-page success log -/
  | pageProcessed (page_name : String)
  deriving DecidableEq, Repr

/-- does `pat` occur at the head of `l`? -/
def leadsWith : List Char → List Char → Bool
  | [], _ => true
  | _ :: _, [] => false
  | p :: ps, c :: cs => p = c && leadsWith ps cs

/-- does `pat` occur anywhere in `l`? (Python `in` on strings) -/
def containsSeq (pat : List Char) : List Char → Bool
  | [] => leadsWith pat []
  | c :: t => leadsWith pat (c :: t) || containsSeq pat t

/-- `os.path.basename` on a POSIX path: the part after the last `/` -/
def lastPart : List String → String
  | [] => ""
  | [x] => x
  | _ :: y :: t => lastPart (y :: t)

def basename (s : String) : String := lastPart (s.splitOn "/")

/-- one attempt of `\[\[([^\]]+)\]\]` at the head of `l`: two brackets,
then the greedy run of non-`]` characters (deterministic: shrinking the
run would put the required `]` on a non-`]` character), then two closing
brackets.  Returns the captured name and the rest. -/
def tryPageLink (l : List Char) : Option (List Char × List Char) :=
  match l with
  | c1 :: c2 :: r =>
    if c1 = '[' && c2 = '[' then
      match r.takeWhile (fun c => c ≠ ']'), r.dropWhile (fun c => c ≠ ']') with
      | nm :: nms, d1 :: d2 :: rest =>
        if d1 = ']' && d2 = ']' then some (nm :: nms, rest) else none
      | _, _ => none
    else none
  | _ => none

theorem dropWhile_length_le (p : Char → Bool) (l : List Char) :
    (l.dropWhile p).length ≤ l.length :=
  (l.dropWhile_sublist p).length_le

theorem tryPageLink_length {l name rest : List Char}
    (h : tryPageLink l = some (name, rest)) : rest.length < l.length := by
  unfold tryPageLink at h
  split at h
  next c1 c2 r =>
    split at h
    · split at h
      next _ _ d1 d2 rest2 _ heq =>
        split at h
        · simp only [Option.some.injEq, Prod.mk.injEq] at h
          obtain ⟨rfl, rfl⟩ := h
          have hle := dropWhile_length_le (fun c => decide (c ≠ ']')) r
          rw [heq] at hle
          simp only [List.length_cons] at hle ⊢
          omega
        · exact absurd h (by simp)
      next => exact absurd h (by simp)
    · exact absurd h (by simp)
  next => exact absurd h (by simp)

/-- `replace_page_link` (notion converter): a name found in
`page_mapping` becomes `[name](quote(filename, safe=''))`; a missing
name logs the warning and becomes `[name](#name)`. -/
def replace_page_link (reg : Registry) (name : List Char) : List Char × List LogEvent :=
  match dlookup ⟨name⟩ reg with
  | some (fn, _) => ('[' :: (name ++ ']' :: '(' :: (pyQuote [] fn).data ++ [')']), [])
  | none => ('[' :: (name ++ ']' :: '(' :: '#' :: name ++ [')']), [.pageNotFound ⟨name⟩])

/-- the substitution `re.sub(r'\[\[([^\]]+)\]\]', replace_page_link, content)`
of the notion converter's `convert_links`, with its warning log -/
def subPageLinksF (reg : Registry) : Nat → List Char → List Char × List LogEvent
  | 0, l => (l, [])
  | _ + 1, [] => ([], [])
  | fuel + 1, c :: t =>
    match tryPageLink (c :: t) with
    | some (name, rest) =>
      let rep := replace_page_link reg name
      let out := subPageLinksF reg fuel rest
      (rep.1 ++ out.1, rep.2 ++ out.2)
    | none =>
      let out := subPageLinksF reg fuel t
      (c :: out.1, out.2)

def subPageLinks (reg : Registry) (l : List Char) : List Char × List LogEvent :=
  subPageLinksF reg l.length l

/-- one attempt of `!\[([^\]]*)\]\(([^)]+)\)` at the head of `l`
(the image pattern of `convert_image_links`): `![`, the possibly-empty
greedy run of non-`]`, `](`, the nonempty greedy run of non-`)`, `)`.
Both greedy runs are deterministic.  Returns (alt text, path, rest). -/
def tryImage (l : List Char) : Option (List Char × List Char × List Char) :=
  match l with
  | '!' :: '[' :: r =>
    match r.dropWhile (fun c => c ≠ ']') with
    | ']' :: '(' :: r2 =>
      match r2.takeWhile (fun c => c ≠ ')'), r2.dropWhile (fun c => c ≠ ')') with
      | p :: ps, ')' :: rest => some (r.takeWhile (fun c => c ≠ ']'), p :: ps, rest)
      | _, _ => none
    | _ => none
  | _ => none

theorem tryImage_length {l alt path rest : List Char}
    (h : tryImage l = some (alt, path, rest)) : rest.length < l.length := by
  unfold tryImage at h
  split at h
  next r =>
    split at h
    next r2 heq =>
      split at h
      next _ _ heq2 =>
        simp only [Option.some.injEq, Prod.mk.injEq] at h
        obtain ⟨rfl, rfl, rfl⟩ := h
        have h1 := dropWhile_length_le (fun c => decide (c ≠ ']')) r
        rw [heq] at h1
        have h2 := dropWhile_length_le (fun c => decide (c ≠ ')')) r2
        rw [heq2] at h2
        simp only [List.length_cons] at h1 h2 ⊢
        omega
      next => exact absurd h (by simp)
    next => exact absurd h (by simp)
  next => exact absurd h (by simp)

/-- `replace_image_link`: a path that starts with `../assets/` or
contains `assets/` is rewritten to the percent-encoded basename; any
other match is returned unchanged (`match.group(0)`). -/
def replace_image_link (alt path : List Char) : List Char :=
  if leadsWith ("../assets/").data path || containsSeq ("assets/").data path then
    '!' :: '[' :: (alt ++ ']' :: '(' :: (pyQuote [] (basename ⟨path⟩)).data ++ [')'])
  else
    '!' :: '[' :: (alt ++ ']' :: '(' :: (path ++ [')']))

/-- the substitution `re.sub(r'!\[([^\]]*)\]\(([^)]+)\)', replace_image_link, content)`
of `convert_image_links` -/
def subImagesF : Nat → List Char → List Char
  | 0, l => l
  | _ + 1, [] => []
  | fuel + 1, c :: t =>
    match tryImage (c :: t) with
    | some (alt, path, rest) => replace_image_link alt path ++ subImagesF fuel rest
    | none => c :: subImagesF fuel t

def subImages (l : List Char) : List Char := subImagesF l.length l

/-- `convert_links` (notion converter): the `[[...]]` substitution, then
`convert_image_links`. -/
def convert_links (reg : Registry) (content : String) : String × List LogEvent :=
  (⟨subImages (subPageLinks reg content.data).1⟩, (subPageLinks reg content.data).2)

/-- one attempt of `^(\s*)-\s+KW\s+` (MULTILINE) at a line start: the
captured whitespace run (which may span newlines), `-`, a nonempty
whitespace run, the keyword, a nonempty greedy whitespace run (consumed
but not kept).  Each greedy run is deterministic: giving characters back
would place the following required literal on a whitespace character.
Returns (captured indent, last consumed char, rest). -/
def tryTask (kw : List Char) (l : List Char) : Option (List Char × Char × List Char) :=
  match l.dropWhile pyIsSpace with
  | '-' :: r2 =>
    match r2.takeWhile pyIsSpace with
    | [] => none
    | _ :: _ =>
      if leadsWith kw (r2.dropWhile pyIsSpace) then
        match (((r2.dropWhile pyIsSpace).drop kw.length).takeWhile pyIsSpace).getLast? with
        | some lastc =>
          some (l.takeWhile pyIsSpace, lastc,
            ((r2.dropWhile pyIsSpace).drop kw.length).dropWhile pyIsSpace)
        | none => none
      else none
  | _ => none

theorem dropWhile_drop_length_le (p : Char → Bool) (n : Nat) (l : List Char) :
    ((l.drop n).dropWhile p).length ≤ l.length :=
  le_trans (dropWhile_length_le p _) (by simpa using List.length_drop_le n l)

theorem tryTask_length {kw l ws : List Char} {lastc : Char} {rest : List Char}
    (h : tryTask kw l = some (ws, lastc, rest)) : rest.length < l.length := by
  unfold tryTask at h
  split at h
  next r2 heq =>
    split at h
    next => exact absurd h (by simp)
    next =>
      split at h
      · split at h
        next _ _ =>
          simp only [Option.some.injEq, Prod.mk.injEq] at h
          obtain ⟨rfl, rfl, rfl⟩ := h
          have h1 := dropWhile_length_le pyIsSpace l
          rw [heq] at h1
          have h2 := dropWhile_drop_length_le pyIsSpace kw.length (r2.dropWhile pyIsSpace)
          have h3 := dropWhile_length_le pyIsSpace r2
          simp only [List.length_cons] at h1
          omega
        next => exact absurd h (by simp)
      · exact absurd h (by simp)
  next => exact absurd h (by simp)

/-- the driver shared by the four task substitutions: `lineStart` tracks
whether the current scan position is the string start or preceded by a
newline in the original string (the `^` of the MULTILINE pattern);
`replTail` is the replacement after the kept indent (`- [x] ` for DONE,
`- [ ] ` for TODO / LATER / NOW). -/
def subTaskF (kw replTail : List Char) : Nat → Bool → List Char → List Char
  | 0, _, l => l
  | _ + 1, _, [] => []
  | fuel + 1, lineStart, c :: t =>
    if lineStart then
      match tryTask kw (c :: t) with
      | some (ws1, lastc, rest) =>
        ws1 ++ replTail ++ subTaskF kw replTail fuel (lastc = '\n') rest
      | none => c :: subTaskF kw replTail fuel (c = '\n') t
    else c :: subTaskF kw replTail fuel (c = '\n') t

def subTaskGo (kw replTail : List Char) (lineStart : Bool) (l : List Char) : List Char :=
  subTaskF kw replTail l.length lineStart l

/-- one attempt of `^([a-zA-Z-]+)::\s*(.*)$` (MULTILINE) at a line
start: the nonempty key run over `[a-zA-Z-]`, the literal `::`, a greedy
whitespace run (which may span newlines), then `(.*)` up to the next
newline; `$` then always holds.  Returns (key, value, last consumed
char, rest). -/
def tryProp (l : List Char) : Option (List Char × List Char × Char × List Char) :=
  match l.takeWhile isPropKeyCh with
  | [] => none
  | k :: ks =>
    match l.dropWhile isPropKeyCh with
    | ':' :: ':' :: r2 =>
      let r3 := r2.dropWhile pyIsSpace
      let val := r3.takeWhile (fun c => c ≠ '\n')
      let lastc := ((val.getLast?).orElse (fun _ => (r2.takeWhile pyIsSpace).getLast?)).getD ':'
      some (k :: ks, val, lastc, r3.dropWhile (fun c => c ≠ '\n'))
    | _ => none

theorem tryProp_length {l key val : List Char} {lastc : Char} {rest : List Char}
    (h : tryProp l = some (key, val, lastc, rest)) : rest.length < l.length := by
  unfold tryProp at h
  split at h
  next => exact absurd h (by simp)
  next =>
    split at h
    next r2 heq =>
      simp only [Option.some.injEq, Prod.mk.injEq] at h
      obtain ⟨rfl, rfl, rfl, rfl⟩ := h
      have h1 := dropWhile_length_le isPropKeyCh l
      rw [heq] at h1
      have h2 := dropWhile_length_le pyIsSpace r2
      have h3 := dropWhile_length_le (fun c => decide (c ≠ '\n')) (r2.dropWhile pyIsSpace)
      simp only [List.length_cons] at h1
      omega
    next => exact absurd h (by simp)

/-- the substitution `re.sub(r'^([a-zA-Z-]+)::\s*(.*)$', r'**\1**: \2', content, flags=re.MULTILINE)` -/
def subPropF : Nat → Bool → List Char → List Char
  | 0, _, l => l
  | _ + 1, _, [] => []
  | fuel + 1, lineStart, c :: t =>
    if lineStart then
      match tryProp (c :: t) with
      | some (key, val, lastc, rest) =>
        '*' :: '*' :: (key ++ '*' :: '*' :: ':' :: ' ' :: val) ++
          subPropF fuel (lastc = '\n') rest
      | none => c :: subPropF fuel (c = '\n') t
    else c :: subPropF fuel (c = '\n') t

def subPropGo (lineStart : Bool) (l : List Char) : List Char :=
  subPropF l.length lineStart l

/-- one attempt of `\(\(\([a-f0-9-]+\)\)\)` at the head of `l` -/
def tryBlockRef (l : List Char) : Option (List Char) :=
  match l with
  | c1 :: c2 :: c3 :: r =>
    if c1 = '(' && c2 = '(' && c3 = '(' then
      match r.takeWhile isBlockRefCh, r.dropWhile isBlockRefCh with
      | _ :: _, d1 :: d2 :: d3 :: rest =>
        if d1 = ')' && d2 = ')' && d3 = ')' then some rest else none
      | _, _ => none
    else none
  | _ => none

theorem tryBlockRef_length {l rest : List Char}
    (h : tryBlockRef l = some rest) : rest.length < l.length := by
  unfold tryBlockRef at h
  split at h
  next c1 c2 c3 r =>
    split at h
    · split at h
      next _ _ d1 d2 d3 rest2 _ heq =>
        split at h
        · simp only [Option.some.injEq] at h
          subst h
          have h1 := dropWhile_length_le isBlockRefCh r
          rw [heq] at h1
          simp only [List.length_cons] at h1 ⊢
          omega
        · exact absurd h (by simp)
      next => exact absurd h (by simp)
    · exact absurd h (by simp)
  next => exact absurd h (by simp)

/-- the substitution `re.sub(r'\(\(\([a-f0-9-]+\)\)\)', '> [引用块]', content)` -/
def subBlockRefF : Nat → List Char → List Char
  | 0, l => l
  | _ + 1, [] => []
  | fuel + 1, c :: t =>
    match tryBlockRef (c :: t) with
    | some rest => ("> [引用块]").data ++ subBlockRefF fuel rest
    | none => c :: subBlockRefF fuel t

def subBlockRef (l : List Char) : List Char := subBlockRefF l.length l

/-- the opening and closing brace characters -/
def obrace : Char := Char.ofNat 123

def cbrace : Char := Char.ofNat 125

/-- one attempt of the query pattern (two opening braces, a nonempty run
of non-closing-brace characters, two closing braces) at the head of `l` -/
def tryQuery (l : List Char) : Option (List Char) :=
  match l with
  | c1 :: c2 :: r =>
    if c1 = obrace && c2 = obrace then
      match r.takeWhile (fun c => c ≠ cbrace), r.dropWhile (fun c => c ≠ cbrace) with
      | _ :: _, d1 :: d2 :: rest =>
        if d1 = cbrace && d2 = cbrace then some rest else none
      | _, _ => none
    else none
  | _ => none

theorem tryQuery_length {l rest : List Char}
    (h : tryQuery l = some rest) : rest.length < l.length := by
  unfold tryQuery at h
  split at h
  next r =>
    split at h
    · split at h
      next _ _ _ heq =>
        split at h
        · simp only [Option.some.injEq] at h
          subst h
          have h1 := dropWhile_length_le (fun c => decide (c ≠ cbrace)) r
          rw [heq] at h1
          simp only [List.length_cons] at h1 ⊢
          omega
        · exact absurd h (by simp)
      next => exact absurd h (by simp)
    · exact absurd h (by simp)
  next => exact absurd h (by simp)

/-- the substitution that replaces every query block with the comment
placeholder `<!-- LogSeq查询已移除 -->` -/
def subQueryF : Nat → List Char → List Char
  | 0, l => l
  | _ + 1, [] => []
  | fuel + 1, c :: t =>
    match tryQuery (c :: t) with
    | some rest => ("<!-- LogSeq查询已移除 -->").data ++ subQueryF fuel rest
    | none => c :: subQueryF fuel t

def subQuery (l : List Char) : List Char := subQueryF l.length l

/-- `convert_logseq_syntax` (notion converter; renamed here for lexical
reasons): the four task-marker substitutions in source order (DONE,
TODO, LATER, NOW), then the property-line, block-reference and query
substitutions. -/
def convert_logseq_markup (content : String) : String :=
  let c1 := subTaskGo ("DONE").data ("- [x] ").data true content.data
  let c2 := subTaskGo ("TODO").data ("- [ ] ").data true c1
  let c3 := subTaskGo ("LATER").data ("- [ ] ").data true c2
  let c4 := subTaskGo ("NOW").data ("- [ ] ").data true c3
  let c5 := subPropGo true c4
  let c6 := subBlockRef c5
  ⟨subQuery c6⟩

/-- the content transformation applied by `convert_file` (notion
converter): `convert_links` (cross-references, then images), then
`convert_logseq_syntax` (task markers, property lines, block
references, queries) -/
def transform_content (reg : Registry) (content : String) : String × List LogEvent :=
  let r := convert_links reg content
  (convert_logseq_markup r.1, r.2)

/-- the text component of `transform_content` -/
def transform_text (reg : Registry) (content : String) : String :=
  (transform_content reg content).1

/-- prefix match of `\d{4}年\d{2}月\d{2}日` with its three groups -/
def chineseGroups (s : String) : Option (String × String × String) :=
  match s.data with
  | y1 :: y2 :: y3 :: y4 :: c1 :: m1 :: m2 :: c2 :: d1 :: d2 :: c3 :: _ =>
    if isDigitCh y1 && isDigitCh y2 && isDigitCh y3 && isDigitCh y4 && c1 = '年' &&
       isDigitCh m1 && isDigitCh m2 && c2 = '月' && isDigitCh d1 && isDigitCh d2 &&
       c3 = '日' then
      some (⟨[y1, y2, y3, y4]⟩, ⟨[m1, m2]⟩, ⟨[d1, d2]⟩)
    else none
  | _ => none

/-- `convert_date_format` (team converter): `YYYY_MM_DD`-prefixed stems
are unpacked by `split('_')` (raising `ValueError` for arity other than
three) into a Chinese date and a `MM/DD/YYYY` date; Chinese-date-prefixed
stems keep their text and derive the `MM/DD/YYYY` date; everything else
returns `(date_str, "")`. -/
def convert_date_format (date_str : String) : Except PyErr (String × String) :=
  if datePrefixMatch date_str then
    match pySplit '_' date_str with
    | [y, m, d] => .ok (y ++ "年" ++ m ++ "月" ++ d ++ "日", m ++ "/" ++ d ++ "/" ++ y)
    | _ => .error .valueErrorUnpack
  else
    match chineseGroups date_str with
    | some (y, m, d) => .ok (date_str, m ++ "/" ++ d ++ "/" ++ y)
    | none => .ok (date_str, "")

/-- which collection directory a source file was found in -/
inductive Collection
  | page
  | journal
  deriving DecidableEq, Repr

/-- `determine_page_type`: files under `journals/` are `日志`; otherwise
a stem matching either date-pattern prefix is `日志`; everything else is
`文章`. -/
def determine_page_type (coll : Collection) (page_name : String) : String :=
  if coll = Collection.journal then "日志"
  else if (chineseGroups page_name).isSome || datePrefixMatch page_name then "日志"
  else "文章"

/-- one attempt of `#+ ` at the head of `l`: the greedy run of `#`,
which must be followed by a space (backtracking cannot help: a shorter
run puts the required space on a `#`) -/
def tryHash (l : List Char) : Option (List Char) :=
  match l with
  | '#' :: t =>
    match (('#' :: t).dropWhile (fun c => c = '#')) with
    | ' ' :: r => some r
    | _ => none
  | _ => none

theorem tryHash_length {l rest : List Char}
    (h : tryHash l = some rest) : rest.length < l.length := by
  unfold tryHash at h
  split at h
  next t =>
    split at h
    next heq =>
      simp only [Option.some.injEq] at h
      subst h
      have h1 := dropWhile_length_le (fun c => decide (c = '#')) ('#' :: t)
      rw [heq] at h1
      simp only [List.length_cons] at h1 ⊢
      omega
    next => exact absurd h (by simp)
  next => exact absurd h (by simp)

/-- the substitution `re.sub(r'#+ ', '', content)` -/
def subHashF : Nat → List Char → List Char
  | 0, l => l
  | _ + 1, [] => []
  | fuel + 1, c :: t =>
    match tryHash (c :: t) with
    | some rest => subHashF fuel rest
    | none => c :: subHashF fuel t

def subHash (l : List Char) : List Char := subHashF l.length l

/-- the lazy search `(.*?)d` without DOTALL: the shortest newline-free
prefix followed by the delimiter `d`; returns (captured, rest). -/
def findLazy (d : List Char) : List Char → Option (List Char × List Char)
  | [] => if leadsWith d [] then some ([], []) else none
  | c :: t =>
    if leadsWith d (c :: t) then some ([], (c :: t).drop d.length)
    else if c = '\n' then none
    else
      match findLazy d t with
      | some (cap, rest) => some (c :: cap, rest)
      | none => none

theorem findLazy_le {d l cap rest : List Char}
    (h : findLazy d l = some (cap, rest)) : rest.length ≤ l.length := by
  induction l generalizing cap with
  | nil =>
    unfold findLazy at h
    split at h
    · simp only [Option.some.injEq, Prod.mk.injEq] at h
      obtain ⟨rfl, rfl⟩ := h
      simp
    · exact absurd h (by simp)
  | cons c t ih =>
    unfold findLazy at h
    split at h
    · simp only [Option.some.injEq, Prod.mk.injEq] at h
      obtain ⟨_, rfl⟩ := h
      simpa using List.length_drop_le d.length (c :: t)
    · split at h
      · exact absurd h (by simp)
      · split at h
        next cap' rest' heq =>
          simp only [Option.some.injEq, Prod.mk.injEq] at h
          obtain ⟨rfl, rfl⟩ := h
          exact le_trans (ih heq) (by simp)
        next => exact absurd h (by simp)

/-- one attempt of `\*\*(.*?)\*\*` at the head of `l`; the replacement
keeps the captured text -/
def tryBold (l : List Char) : Option (List Char × List Char) :=
  match l with
  | '*' :: '*' :: r => findLazy ['*', '*'] r
  | _ => none

theorem tryBold_length {l cap rest : List Char}
    (h : tryBold l = some (cap, rest)) : rest.length < l.length := by
  unfold tryBold at h
  split at h
  next r =>
    have := findLazy_le h
    simp only [List.length_cons]
    omega
  next => exact absurd h (by simp)

/-- the substitution `re.sub(r'\*\*(.*?)\*\*', r'\1', content)` -/
def subBoldF : Nat → List Char → List Char
  | 0, l => l
  | _ + 1, [] => []
  | fuel + 1, c :: t =>
    match tryBold (c :: t) with
    | some (cap, rest) => cap ++ subBoldF fuel rest
    | none => c :: subBoldF fuel t

def subBold (l : List Char) : List Char := subBoldF l.length l

/-- one attempt of `\*(.*?)\*` at the head of `l` -/
def tryItalic (l : List Char) : Option (List Char × List Char) :=
  match l with
  | '*' :: r => findLazy ['*'] r
  | _ => none

theorem tryItalic_length {l cap rest : List Char}
    (h : tryItalic l = some (cap, rest)) : rest.length < l.length := by
  unfold tryItalic at h
  split at h
  next r =>
    have := findLazy_le h
    simp only [List.length_cons]
    omega
  next => exact absurd h (by simp)

/-- the substitution `re.sub(r'\*(.*?)\*', r'\1', content)` -/
def subItalicF : Nat → List Char → List Char
  | 0, l => l
  | _ + 1, [] => []
  | fuel + 1, c :: t =>
    match tryItalic (c :: t) with
    | some (cap, rest) => cap ++ subItalicF fuel rest
    | none => c :: subItalicF fuel t

def subItalic (l : List Char) : List Char := subItalicF l.length l

/-- the backtracking tail of `\[(.*?)\]\(.*?\)` after the opening `[`:
the lazy group grows one character at a time (it may absorb `]`
characters whose `](` continuation cannot complete) until a `](` whose
`.*?\)` part succeeds.  Returns (captured group 1, rest). -/
def findLink : List Char → Option (List Char × List Char)
  | [] => none
  | c :: t =>
    if c = ']' && t.head? == some '(' then
      match findLazy [')'] t.tail with
      | some p => some ([], p.2)
      | none => (findLink t).map (fun q => (c :: q.1, q.2))
    else if c = '\n' then none
    else (findLink t).map (fun q => (c :: q.1, q.2))

theorem findLink_le {l cap rest : List Char}
    (h : findLink l = some (cap, rest)) : rest.length ≤ l.length := by
  induction l generalizing cap with
  | nil => exact absurd h (by simp [findLink])
  | cons c t ih =>
    rw [findLink] at h
    split at h
    · split at h
      next p heq =>
        simp only [Option.some.injEq, Prod.mk.injEq] at h
        obtain ⟨rfl, rfl⟩ := h
        have h1 := findLazy_le heq
        have h2 : t.tail.length ≤ t.length := by
          cases t <;> simp
        simp only [List.length_cons]
        omega
      next =>
        simp only [Option.map_eq_some'] at h
        obtain ⟨⟨cap', rest'⟩, heq, h⟩ := h
        simp only [Prod.mk.injEq] at h
        obtain ⟨rfl, rfl⟩ := h
        exact le_trans (ih heq) (by simp)
    · split at h
      · exact absurd h (by simp)
      · simp only [Option.map_eq_some'] at h
        obtain ⟨⟨cap', rest'⟩, heq, h⟩ := h
        simp only [Prod.mk.injEq] at h
        obtain ⟨rfl, rfl⟩ := h
        exact le_trans (ih heq) (by simp)

/-- one attempt of `\[(.*?)\]\(.*?\)` at the head; the replacement keeps
group 1 -/
def tryLinkStrip (l : List Char) : Option (List Char × List Char) :=
  match l with
  | '[' :: r => findLink r
  | _ => none

theorem tryLinkStrip_length {l cap rest : List Char}
    (h : tryLinkStrip l = some (cap, rest)) : rest.length < l.length := by
  unfold tryLinkStrip at h
  split at h
  next r =>
    have := findLink_le h
    simp only [List.length_cons]
    omega
  next => exact absurd h (by simp)

/-- the substitution `re.sub(r'\[(.*?)\]\(.*?\)', r'\1', content)` -/
def subLinkStripF : Nat → List Char → List Char
  | 0, l => l
  | _ + 1, [] => []
  | fuel + 1, c :: t =>
    match tryLinkStrip (c :: t) with
    | some (cap, rest) => cap ++ subLinkStripF fuel rest
    | none => c :: subLinkStripF fuel t

def subLinkStrip (l : List Char) : List Char := subLinkStripF l.length l

/-- one attempt of `!\[.*?\]\(.*?\)` at the head; the replacement is
empty -/
def tryImageStrip (l : List Char) : Option (List Char) :=
  match l with
  | '!' :: '[' :: r => (findLink r).map (fun q => q.2)
  | _ => none

theorem tryImageStrip_length {l rest : List Char}
    (h : tryImageStrip l = some rest) : rest.length < l.length := by
  unfold tryImageStrip at h
  split at h
  next r =>
    simp only [Option.map_eq_some'] at h
    obtain ⟨⟨cap', rest'⟩, heq, h⟩ := h
    subst h
    have := findLink_le heq
    simp only [List.length_cons]
    omega
  next => exact absurd h (by simp)

/-- the substitution `re.sub(r'!\[.*?\]\(.*?\)', '', content)` -/
def subImageStripF : Nat → List Char → List Char
  | 0, l => l
  | _ + 1, [] => []
  | fuel + 1, c :: t =>
    match tryImageStrip (c :: t) with
    | some rest => subImageStripF fuel rest
    | none => c :: subImageStripF fuel t

def subImageStrip (l : List Char) : List Char := subImageStripF l.length l

/-- the lazy search `.*?d` with DOTALL (used for fenced code blocks):
the shortest arbitrary prefix followed by the delimiter; only the rest
is needed since the replacement is empty -/
def findAny (d : List Char) : List Char → Option (List Char)
  | [] => if leadsWith d [] then some [] else none
  | c :: t =>
    if leadsWith d (c :: t) then some ((c :: t).drop d.length)
    else findAny d t

theorem findAny_le {d l rest : List Char}
    (h : findAny d l = some rest) : rest.length ≤ l.length := by
  induction l with
  | nil =>
    unfold findAny at h
    split at h
    · simp only [Option.some.injEq] at h
      subst h
      simp
    · exact absurd h (by simp)
  | cons c t ih =>
    unfold findAny at h
    split at h
    · simp only [Option.some.injEq] at h
      subst h
      simpa using List.length_drop_le d.length (c :: t)
    · exact le_trans (ih h) (by simp)

/-- the backquote character -/
def btick : Char := Char.ofNat 96

/-- one attempt of the fenced-code-block pattern (three backquotes, a
DOTALL lazy body, three backquotes); the replacement is empty -/
def tryCodeBlock (l : List Char) : Option (List Char) :=
  match l with
  | c1 :: c2 :: c3 :: r =>
    if c1 = btick && c2 = btick && c3 = btick then
      findAny [btick, btick, btick] r
    else none
  | _ => none

theorem tryCodeBlock_length {l rest : List Char}
    (h : tryCodeBlock l = some rest) : rest.length < l.length := by
  unfold tryCodeBlock at h
  split at h
  next r =>
    split at h
    · have := findAny_le h
      simp only [List.length_cons]
      omega
    · exact absurd h (by simp)
  next => exact absurd h (by simp)

/-- the substitution removing fenced code blocks (DOTALL) -/
def subCodeBlockF : Nat → List Char → List Char
  | 0, l => l
  | _ + 1, [] => []
  | fuel + 1, c :: t =>
    match tryCodeBlock (c :: t) with
    | some rest => subCodeBlockF fuel rest
    | none => c :: subCodeBlockF fuel t

def subCodeBlock (l : List Char) : List Char := subCodeBlockF l.length l

/-- one attempt of the inline-code pattern (backquote, a lazy
newline-free body, backquote); the replacement is empty -/
def tryInlineCode (l : List Char) : Option (List Char) :=
  match l with
  | c :: r =>
    if c = btick then (findLazy [btick] r).map (fun q => q.2)
    else none
  | _ => none

theorem tryInlineCode_length {l rest : List Char}
    (h : tryInlineCode l = some rest) : rest.length < l.length := by
  unfold tryInlineCode at h
  split at h
  next r =>
    split at h
    · simp only [Option.map_eq_some'] at h
      obtain ⟨⟨cap', rest'⟩, heq, h⟩ := h
      subst h
      have := findLazy_le heq
      simp only [List.length_cons]
      omega
    · exact absurd h (by simp)
  next => exact absurd h (by simp)

/-- the substitution removing inline code spans -/
def subInlineCodeF : Nat → List Char → List Char
  | 0, l => l
  | _ + 1, [] => []
  | fuel + 1, c :: t =>
    match tryInlineCode (c :: t) with
    | some rest => subInlineCodeF fuel rest
    | none => c :: subInlineCodeF fuel t

def subInlineCode (l : List Char) : List Char := subInlineCodeF l.length l

/-- Python `str.split()` with no arguments: words separated by
whitespace runs, no empty words -/
def pyWordsF : Nat → List Char → List (List Char)
  | 0, _ => []
  | _ + 1, [] => []
  | fuel + 1, c :: t =>
    if pyIsSpace c then pyWordsF fuel t
    else (c :: t.takeWhile (fun x => !pyIsSpace x)) ::
      pyWordsF fuel (t.dropWhile (fun x => !pyIsSpace x))

def pyWords (l : List Char) : List (List Char) := pyWordsF l.length l

/-- Python `str.strip()` with no arguments -/
def pyStrip (s : String) : String :=
  ⟨((s.data.dropWhile pyIsSpace).reverse.dropWhile pyIsSpace).reverse⟩

/-- `extract_summary` (team converter): strip heading marks, bold,
italic, links (keeping their text), images, fenced and inline code, in
source order; collapse all whitespace to single spaces; truncate to the
default `max_length = 150` codepoints plus `...`; strip.  (The function
is only ever called with the default length.) -/
def extract_summary (content : String) : String :=
  let c1 := subHash content.data
  let c2 := subBold c1
  let c3 := subItalic c2
  let c4 := subLinkStrip c3
  let c5 := subImageStrip c4
  let c6 := subCodeBlock c5
  let c7 := subInlineCode c6
  let joined := String.intercalate " " ((pyWords c7).map (fun w => (⟨w⟩ : String)))
  let trunc := if joined.length > 150 then (⟨joined.data.take 150⟩ : String) ++ "..." else joined
  pyStrip trunc

/-- `replace_page_link` (team converter): a found name links to the
percent-encoded filename minus its `.md` (with the default
`safe='/'`), re-suffixed with `.md` (and `%20uuid` when applicable); a
missing name becomes plain `[name]` with no log and no anchor. -/
def replace_page_link_team (withUuid : Bool) (reg : Registry) (name : List Char) :
    List Char :=
  match dlookup ⟨name⟩ reg with
  | some (fn, uu) =>
    let encoded := pyQuote ['/'] (fn.dropRight 3)
    if withUuid && uu ≠ "" then
      ("[" ++ (⟨name⟩ : String) ++ "](" ++ encoded ++ "%20" ++ uu ++ ".md)").data
    else
      ("[" ++ (⟨name⟩ : String) ++ "](" ++ encoded ++ ".md)").data
  | none => ("[" ++ (⟨name⟩ : String) ++ "]").data

/-- the `[[...]]` substitution of the team converter's `convert_links`
(the only substitution that converter performs) -/
def subPageLinksTeamF (withUuid : Bool) (reg : Registry) : Nat → List Char → List Char
  | 0, l => l
  | _ + 1, [] => []
  | fuel + 1, c :: t =>
    match tryPageLink (c :: t) with
    | some (name, rest) =>
      replace_page_link_team withUuid reg name ++ subPageLinksTeamF withUuid reg fuel rest
    | none => c :: subPageLinksTeamF withUuid reg fuel t

def subPageLinksTeam (withUuid : Bool) (reg : Registry) (l : List Char) : List Char :=
  subPageLinksTeamF withUuid reg l.length l

/-- `convert_links` (team converter) -/
def convert_links_team (withUuid : Bool) (reg : Registry) (content : String) : String :=
  ⟨subPageLinksTeam withUuid reg content.data⟩

/-- one source file, identified by its filename stem, with its raw
text -/
structure MDFile where
  stem : String
  body : String
  deriving DecidableEq, Repr

/-- the page content assembled by `create_notion_page` (team converter):
the title line, the property block (`Created by`, optional start date,
status, page type, optional summary), a horizontal rule, then the body
with `convert_links` applied against the current `page_mapping` -/
def create_notion_page_content (withUuid : Bool) (reg : Registry)
    (page_name page_type start_date content summary : String) : String :=
  "# " ++ page_name ++ "\n\n" ++
  "Created by: LogSeq导入\n" ++
  (if start_date ≠ "" then "开始日期: " ++ start_date ++ "\n" else "") ++
  "状态: Not started\n" ++
  "页面类型: " ++ page_type ++ "\n" ++
  (if summary ≠ "" then "摘要: " ++ summary ++ "\n" else "") ++
  "\n---\n\n" ++
  convert_links_team withUuid reg content

/-- one row of the aggregated database (team converter) -/
structure DatabaseEntry where
  name : String
  start_date : String
  page_type : String
  end_date : String
  related_members : String
  created_by : String
  tags : String
  summary : String
  status : String
  progress : String
  deriving DecidableEq, Repr

/-- the dict literal built by `process_page_file` -/
def mkEntry (display start_date page_type summary : String) : DatabaseEntry :=
  { name := display, start_date := start_date, page_type := page_type,
    end_date := "", related_members := "", created_by := "LogSeq导入",
    tags := "", summary := summary, status := "Not started", progress := "" }

/-- the mutable state of a team-converter run: `page_mapping`,
`database_entries`, the pages written so far (filename, content), and
the log -/
structure TeamState where
  page_mapping : Registry
  database_entries : List DatabaseEntry
  written : List (String × String)
  logs : List LogEvent
  deriving DecidableEq, Repr

/-- `process_page_file` (team converter): skip `contents`; compute the
page type, then (for `日志` pages) the date conversion — which may
raise — *before* reading; a read failure is logged and skips the file
before any `page_mapping` entry exists; otherwise the mapping is
updated, the summary and database row built, and the page written
through `create_notion_page` (a write failure is logged and
swallowed). -/
def process_page_file (withUuid : Bool) (page_uuid : String)
    (readOk writeOk : String → Bool) (coll : Collection) (f : MDFile)
    (st : TeamState) : Except PyErr TeamState :=
  if f.stem = "contents" then
    .ok { st with logs := st.logs ++ [.skippedContents] }
  else do
    let page_type := determine_page_type coll f.stem
    let dd ← if page_type = "日志" then convert_date_format f.stem
             else .ok (f.stem, "")
    if readOk f.stem then
      let uu := if withUuid then page_uuid else ""
      let notion_filename := create_notion_filename withUuid dd.1 uu
      let mapping' := dinsert f.stem (notion_filename, uu) st.page_mapping
      let summary := extract_summary f.body
      let entry := mkEntry dd.1 dd.2 page_type summary
      let page_content :=
        create_notion_page_content withUuid mapping' dd.1 page_type dd.2 f.body summary
      let wl : List (String × String) × List LogEvent :=
        if writeOk notion_filename then ([(notion_filename, page_content)], [])
        else ([], [.writePageFailed notion_filename])
      .ok { page_mapping := mapping',
            database_entries := st.database_entries ++ [entry],
            written := st.written ++ wl.1,
            logs := st.logs ++ wl.2 ++ [.pageProcessed f.stem] }
    else
      .ok { st with logs := st.logs ++ [.readFileFailed f.stem] }

/-- the per-file loop of `scan_and_convert_pages`, with a counter
feeding the per-file `uuid.uuid4().hex` oracle -/
def teamFold (withUuid : Bool) (uuidGen : Nat → String)
    (readOk writeOk : String → Bool) :
    Nat → TeamState → List (Collection × MDFile) → Except PyErr TeamState
  | _, st, [] => .ok st
  | n, st, (coll, f) :: rest => do
    teamFold withUuid uuidGen readOk writeOk (n + 1)
      (← process_page_file withUuid (uuidGen n) readOk writeOk coll f st) rest

/-- `scan_and_convert_pages` (team converter): `pages/*.md` then
`journals/*.md`, each file scanned *and* converted in the same pass —
there is no separate registry-building phase. -/
def scan_and_convert_pages (withUuid : Bool) (uuidGen : Nat → String)
    (readOk writeOk : String → Bool) (pages journals : List MDFile) :
    Except PyErr TeamState :=
  teamFold withUuid uuidGen readOk writeOk 0
    { page_mapping := [], database_entries := [], written := [], logs := [] }
    (pages.map (fun f => (Collection.page, f)) ++
     journals.map (fun f => (Collection.journal, f)))

/-- the observable outcome of a notion-converter run: the completed
registry, the written files, the log, and `total_pages` as reported by
`generate_conversion_report` and the closing `convert` log (both are
`len(self.page_mapping)`) -/
structure NotionResult where
  registry : Registry
  written : List (String × String)
  logs : List LogEvent
  report_total : Nat
  deriving DecidableEq, Repr

/-- `convert_file` (notion converter): the whole read-convert-write is
inside try/except — the transformation runs, then the write either
succeeds (success log) or fails (failure log, no output, run
continues) -/
def convert_file (reg : Registry) (writeOk : String → Bool) (f : MDFile)
    (target : String) : List (String × String) × List LogEvent :=
  let r := transform_content reg f.body
  if writeOk target then ([(target, r.1)], r.2 ++ [.convertFileDone f.stem])
  else ([], r.2 ++ [.convertFileFailed f.stem])

/-- one loop iteration of `convert_all_pages`: a file whose stem is in
`page_mapping` is converted to its mapped target; others are skipped -/
def cap_step (reg : Registry) (writeOk : String → Bool)
    (acc : List (String × String) × List LogEvent) (f : MDFile) :
    List (String × String) × List LogEvent :=
  match dlookup f.stem reg with
  | some (fn, _) =>
    let r := convert_file reg writeOk f fn
    (acc.1 ++ r.1, acc.2 ++ r.2)
  | none => acc

/-- `convert_all_pages` (notion converter): the `pages/*.md` loop then
the `journals/*.md` loop; each file whose stem is in `page_mapping` is
converted against the (already total) registry -/
def convert_all_pages (reg : Registry) (writeOk : String → Bool)
    (pages journals : List MDFile) : List (String × String) × List LogEvent :=
  (pages ++ journals).foldl (cap_step reg writeOk) ([], [])

/-- `convert` (notion converter): `scan_pages` runs to completion (or
raises) before `convert_all_pages` starts; the reported total is the
registry size. -/
def notion_convert (generate_uuid : Bool) (pages journals : List MDFile)
    (writeOk : String → Bool) : Except PyErr NotionResult := do
  let reg ← scan_pages generate_uuid (pages.map MDFile.stem) (journals.map MDFile.stem)
  let wl := convert_all_pages reg writeOk pages journals
  .ok { registry := reg, written := wl.1, logs := wl.2, report_total := reg.length }

/-! ### registry lemmas -/

theorem dlookup_dinsert_self (k : String) (v : RegEntry) (reg : Registry) :
    dlookup k (dinsert k v reg) = some v := by
  induction reg with
  | nil => simp [dinsert, dlookup]
  | cons p t ih =>
    obtain ⟨k', v'⟩ := p
    by_cases h : k' = k
    · subst h
      simp [dinsert, dlookup]
    · simp [dinsert, dlookup, h, ih]

theorem dlookup_dinsert_ne {k k' : String} (h : k ≠ k') (v : RegEntry) (reg : Registry) :
    dlookup k (dinsert k' v reg) = dlookup k reg := by
  have h' : ¬ (k' = k) := fun hh => h hh.symm
  induction reg with
  | nil => simp [dinsert, dlookup, h']
  | cons p t ih =>
    obtain ⟨k'', v''⟩ := p
    by_cases h2 : k'' = k'
    · subst h2
      simp [dinsert, dlookup, h']
    · simp [dinsert, dlookup, h2, ih]

theorem dlookup_isSome_dinsert {k : String} (k' : String) (v : RegEntry) (reg : Registry)
    (h : (dlookup k reg).isSome) : (dlookup k (dinsert k' v reg)).isSome := by
  by_cases hk : k = k'
  · subst hk
    simp [dlookup_dinsert_self]
  · rwa [dlookup_dinsert_ne hk]

/-- the keys of a registry -/
def regKeys (reg : Registry) : List String := reg.map Prod.fst

theorem mem_regKeys_dinsert {a k : String} {v : RegEntry} {reg : Registry} :
    a ∈ regKeys (dinsert k v reg) ↔ a = k ∨ a ∈ regKeys reg := by
  induction reg with
  | nil => simp [dinsert, regKeys]
  | cons p t ih =>
    obtain ⟨k', v'⟩ := p
    by_cases h : k' = k
    · subst h
      have he : dinsert k' v ((k', v') :: t) = (k', v) :: t := by simp [dinsert]
      rw [he]
      show a ∈ k' :: regKeys t ↔ _
      show _ ↔ a = k' ∨ a ∈ k' :: regKeys t
      simp only [List.mem_cons]
      tauto
    · have he : dinsert k v ((k', v') :: t) = (k', v') :: dinsert k v t := by
        simp [dinsert, h]
      rw [he]
      show a ∈ k' :: regKeys (dinsert k v t) ↔ _ ∨ a ∈ k' :: regKeys t
      simp only [List.mem_cons]
      rw [show (a ∈ regKeys (dinsert k v t)) = (a = k ∨ a ∈ regKeys t) from propext ih]
      tauto

theorem keys_nodup_dinsert {k : String} {v : RegEntry} {reg : Registry}
    (h : (regKeys reg).Nodup) : (regKeys (dinsert k v reg)).Nodup := by
  induction reg with
  | nil => simp [dinsert, regKeys]
  | cons p t ih =>
    obtain ⟨k', v'⟩ := p
    rw [show regKeys ((k', v') :: t) = k' :: regKeys t from rfl, List.nodup_cons] at h
    obtain ⟨hk', hn⟩ := h
    by_cases h2 : k' = k
    · subst h2
      have he : dinsert k' v ((k', v') :: t) = (k', v) :: t := by simp [dinsert]
      rw [he, show regKeys ((k', v) :: t) = k' :: regKeys t from rfl, List.nodup_cons]
      exact ⟨hk', hn⟩
    · have he : dinsert k v ((k', v') :: t) = (k', v') :: dinsert k v t := by
        simp [dinsert, h2]
      rw [he, show regKeys ((k', v') :: dinsert k v t) = k' :: regKeys (dinsert k v t)
        from rfl, List.nodup_cons]
      refine ⟨?_, ih hn⟩
      intro hmem
      rcases mem_regKeys_dinsert.1 hmem with h3 | h3
      · exact h2 h3
      · exact hk' h3

theorem mem_dinsert {a k : String} {w v : RegEntry} {reg : Registry}
    (h : (a, w) ∈ dinsert k v reg) : (a = k ∧ w = v) ∨ (a, w) ∈ reg := by
  induction reg with
  | nil =>
    simp [dinsert] at h
    exact Or.inl h
  | cons p t ih =>
    obtain ⟨k', v'⟩ := p
    by_cases h2 : k' = k
    · subst h2
      simp [dinsert] at h
      rcases h with h | h
      · exact Or.inl h
      · exact Or.inr (by simp [h])
    · simp [dinsert, h2] at h
      rcases h with h | h
      · exact Or.inr (by simp [h])
      · rcases ih h with h3 | h3
        · exact Or.inl h3
        · exact Or.inr (by simp [h3])

theorem dlookup_of_mem_nodup {k : String} {v : RegEntry} {reg : Registry}
    (hn : (regKeys reg).Nodup) (h : (k, v) ∈ reg) : dlookup k reg = some v := by
  induction reg with
  | nil => simp at h
  | cons p t ih =>
    obtain ⟨k', v'⟩ := p
    rw [show regKeys ((k', v') :: t) = k' :: regKeys t from rfl, List.nodup_cons] at hn
    obtain ⟨hk', hnt⟩ := hn
    rcases List.mem_cons.1 h with heq | hmem
    · cases heq
      simp [dlookup]
    · have hne : k' ≠ k := by
        rintro rfl
        exact hk' (List.mem_map_of_mem _ hmem)
      simp [dlookup, hne]
      exact ih hnt hmem

/-- inversion for a successful `Except` bind -/
theorem bind_ok {α β : Type} {x : Except PyErr α} {f : α → Except PyErr β} {b : β}
    (h : (x >>= f) = .ok b) : ∃ a, x = .ok a ∧ f a = .ok b := by
  cases x with
  | error e => simp [Bind.bind, Except.bind] at h
  | ok a => exact ⟨a, rfl, by simpa [Bind.bind, Except.bind] using h⟩

/-- a scan step that only performs the dict assignment for its own stem -/
def StepInserts (step : Registry → String → Except PyErr Registry) : Prop :=
  ∀ reg s reg', step reg s = .ok reg' → ∃ v, reg' = dinsert s v reg

theorem stepInserts_page : StepInserts (scan_one_page false) := by
  intro reg s reg' h
  simp [scan_one_page] at h
  exact ⟨_, h.symm⟩

theorem stepInserts_journal : StepInserts (scan_one_journal false) := by
  intro reg s reg' h
  simp only [scan_one_journal] at h
  obtain ⟨d, hd, h2⟩ := bind_ok h
  simp at h2
  exact ⟨_, h2.symm⟩

theorem scanFold_cons {step : Registry → String → Except PyErr Registry}
    {reg reg' : Registry} {s : String} {ss : List String}
    (h : scanFold step reg (s :: ss) = .ok reg') :
    ∃ reg1, step reg s = .ok reg1 ∧ scanFold step reg1 ss = .ok reg' := by
  simp only [scanFold] at h
  exact bind_ok h

theorem scanFold_isSome_mono {step} (hS : StepInserts step) {reg reg' : Registry}
    {ss : List String} (hf : scanFold step reg ss = .ok reg') {k : String}
    (hk : (dlookup k reg).isSome) : (dlookup k reg').isSome := by
  induction ss generalizing reg with
  | nil =>
    simp [scanFold] at hf
    subst hf
    exact hk
  | cons s rest ih =>
    obtain ⟨reg1, h1, h2⟩ := scanFold_cons hf
    obtain ⟨v, rfl⟩ := hS reg s reg1 h1
    exact ih h2 (dlookup_isSome_dinsert s v reg hk)

theorem scanFold_isSome_of_mem {step} (hS : StepInserts step) {reg reg' : Registry}
    {ss : List String} (hf : scanFold step reg ss = .ok reg') {k : String}
    (hk : k ∈ ss) : (dlookup k reg').isSome := by
  induction ss generalizing reg with
  | nil => simp at hk
  | cons s rest ih =>
    obtain ⟨reg1, h1, h2⟩ := scanFold_cons hf
    obtain ⟨v, rfl⟩ := hS reg s reg1 h1
    rcases List.mem_cons.1 hk with rfl | hk2
    · exact scanFold_isSome_mono hS h2 (by simp [dlookup_dinsert_self])
    · exact ih h2 hk2

theorem scanFold_preserve_not_mem {step} (hS : StepInserts step) {reg reg' : Registry}
    {ss : List String} (hf : scanFold step reg ss = .ok reg') {k : String}
    (hk : k ∉ ss) : dlookup k reg' = dlookup k reg := by
  induction ss generalizing reg with
  | nil =>
    simp [scanFold] at hf
    subst hf
    rfl
  | cons s rest ih =>
    obtain ⟨reg1, h1, h2⟩ := scanFold_cons hf
    obtain ⟨v, rfl⟩ := hS reg s reg1 h1
    have hks : k ≠ s := fun hh => hk (by simp [hh])
    rw [ih h2 (fun hh => hk (by simp [hh])), dlookup_dinsert_ne hks]

theorem scanFold_nodup {step} (hS : StepInserts step) {reg reg' : Registry}
    {ss : List String} (hf : scanFold step reg ss = .ok reg')
    (hn : (regKeys reg).Nodup) : (regKeys reg').Nodup := by
  induction ss generalizing reg with
  | nil =>
    simp [scanFold] at hf
    subst hf
    exact hn
  | cons s rest ih =>
    obtain ⟨reg1, h1, h2⟩ := scanFold_cons hf
    obtain ⟨v, rfl⟩ := hS reg s reg1 h1
    exact ih h2 (keys_nodup_dinsert hn)

/-- a scan step whose inserted value satisfies `P` of the stem -/
def StepShape (P : String → RegEntry → Prop)
    (step : Registry → String → Except PyErr Registry) : Prop :=
  ∀ reg s reg', step reg s = .ok reg' → ∃ v, P s v ∧ reg' = dinsert s v reg

theorem scanFold_mem_shape {P step} (hS : StepShape P step) {reg reg' : Registry}
    {ss : List String} (hf : scanFold step reg ss = .ok reg') {k : String}
    {v : RegEntry} (hm : (k, v) ∈ reg') : P k v ∨ (k, v) ∈ reg := by
  induction ss generalizing reg with
  | nil =>
    simp [scanFold] at hf
    subst hf
    exact Or.inr hm
  | cons s rest ih =>
    obtain ⟨reg1, h1, h2⟩ := scanFold_cons hf
    obtain ⟨w, hw, rfl⟩ := hS reg s reg1 h1
    rcases ih h2 with h3 | h3
    · exact Or.inl h3
    · rcases mem_dinsert h3 with ⟨rfl, rfl⟩ | h4
      · exact Or.inl hw
      · exact Or.inr h4

theorem stepShape_page :
    StepShape (fun s v => v = (create_notion_filename false s "", ""))
      (scan_one_page false) := by
  intro reg s reg' h
  simp [scan_one_page] at h
  exact ⟨_, rfl, h.symm⟩

theorem stepShape_journal :
    StepShape (fun s v => ∃ d, journal_display s = .ok d ∧
        v = (create_notion_filename false d "", ""))
      (scan_one_journal false) := by
  intro reg s reg' h
  simp only [scan_one_journal] at h
  obtain ⟨d, hd, h2⟩ := bind_ok h
  simp at h2
  exact ⟨_, ⟨d, hd, rfl⟩, h2.symm⟩

/-- after a successful journal fold, a stem contained in it maps to its
deterministic journal value -/
theorem scanFold_journal_lookup {reg reg' : Registry} {js : List String}
    (hf : scanFold (scan_one_journal false) reg js = .ok reg') {k : String}
    (hk : k ∈ js) :
    ∃ d, journal_display k = .ok d ∧
      dlookup k reg' = some (create_notion_filename false d "", "") := by
  induction js generalizing reg with
  | nil => simp at hk
  | cons s rest ih =>
    obtain ⟨reg1, h1, h2⟩ := scanFold_cons hf
    by_cases hkr : k ∈ rest
    · exact ih h2 hkr
    · rcases List.mem_cons.1 hk with rfl | hk2
      · simp only [scan_one_journal] at h1
        obtain ⟨d, hd, h3⟩ := bind_ok h1
        simp at h3
        refine ⟨d, hd, ?_⟩
        rw [scanFold_preserve_not_mem stepInserts_journal h2 hkr, ← h3,
          dlookup_dinsert_self]
      · exact absurd hk2 hkr

/-! ### claims -/

/-- C2: when identifier generation is enabled, registry construction does
*not* complete: `__init__` stores the boolean flag over the
`generate_uuid` method, so the first scanned page (or journal) raises
`TypeError: 'bool' object is not callable` at
`self.generate_uuid()`; with the flag disabled, the output filename is
the sanitized display name plus the extension, as documented. -/
theorem c2_uuid_enabled_crashes :
    scan_pages true [("A" : String)] [] = .error .typeErrorBoolNotCallable ∧
    scan_pages true [] [("2025_01_01" : String)] = .error .typeErrorBoolNotCallable ∧
    scan_pages false [("A" : String)] [] = .ok [("A", ("A.md", ""))] :=
  ⟨by rfl, by rfl, by rfl⟩

/-- C3 counterexample: a page `2025_01_01` and a journal `2025_01_01`
share the single `page_mapping` dict slot — the completed registry has
exactly one entry, holding the journal's filename, and the page's
filename (`2025_01_01.md`, shown distinct) is overwritten. -/
theorem c3_counterexample :
    scan_pages false [("2025_01_01" : String)] [("2025_01_01" : String)] =
      .ok [("2025_01_01", ("2025年01月01日.md", ""))] ∧
    ("2025年01月01日.md" : String) ≠ ("2025_01_01.md" : String) :=
  ⟨by rfl, by decide⟩

/-- C3 (amended): both collections write into one registry keyed by the
logical key; for a key present in both, the journal entry — scanned
second — overwrites the page entry (last-write-wins), and every
registry entry for that key holds the journal's value. -/
theorem c3_overwrite (pages journals : List String) (k : String) (reg : Registry)
    (hok : scan_pages false pages journals = .ok reg)
    (hp : k ∈ pages) (hj : k ∈ journals) :
    ∃ d, journal_display k = .ok d ∧
      dlookup k reg = some (create_notion_filename false d "", "") ∧
      ∀ v, (k, v) ∈ reg → v = (create_notion_filename false d "", "") := by
  unfold scan_pages at hok
  obtain ⟨reg1, h1, h2⟩ := bind_ok hok
  obtain ⟨d, hd, hl⟩ := scanFold_journal_lookup h2 hj
  refine ⟨d, hd, hl, ?_⟩
  intro v hv
  have hn : (regKeys reg).Nodup :=
    scanFold_nodup stepInserts_journal h2
      (scanFold_nodup stepInserts_page h1 (by simp [regKeys]))
  have hmem := dlookup_of_mem_nodup hn hv
  rw [hl] at hmem
  exact (Option.some.inj hmem).symm

/-- C3 witness: the overwrite theorem applied to the colliding stem
`2025_01_01`. -/
theorem c3_overwrite_witness :
    ∃ d, journal_display ("2025_01_01") = .ok d ∧
      dlookup ("2025_01_01") [("2025_01_01", ("2025年01月01日.md", ""))] =
        some (create_notion_filename false d "", "") ∧
      ∀ v, (("2025_01_01" : String), v) ∈
          ([("2025_01_01", ("2025年01月01日.md", ""))] : Registry) →
        v = (create_notion_filename false d "", "") :=
  c3_overwrite [("2025_01_01" : String)] [("2025_01_01" : String)] ("2025_01_01") _
    (by rfl) (by simp) (by simp)

/-- C4 counterexample: the journal key `2025_01_01_1` matches the date
pattern as a prefix, but `split('_')` yields four parts, so registry
construction raises `ValueError` instead of degrading to the raw key. -/
theorem c4_counterexample :
    scan_pages false [] [("2025_01_01_1" : String)] = .error .valueErrorUnpack := by
  rfl

/-- C4 (amended): journal keys are tested by a *prefix* match of the
date pattern.  A key with the date-pattern prefix and exactly two
underscores yields the locale date built from its three segments; a key
with the prefix but a different underscore count raises `ValueError`
and fails the run; only keys without the prefix fall back to the raw
key. -/
theorem c4_journal_key_cases (k : String) :
    (datePrefixMatch k = true → ∀ y m d, pySplit '_' k = [y, m, d] →
      scan_pages false [] [k] =
        .ok [(k, (create_notion_filename false
          (y ++ "年" ++ m ++ "月" ++ d ++ "日") "", ""))]) ∧
    (datePrefixMatch k = true → (pySplit '_' k).length ≠ 3 →
      scan_pages false [] [k] = .error .valueErrorUnpack) ∧
    (datePrefixMatch k = false →
      scan_pages false [] [k] = .ok [(k, (create_notion_filename false k "", ""))]) := by
  refine ⟨?_, ?_, ?_⟩
  · intro h1 y m d hs
    simp [scan_pages, scanFold, scan_one_journal, journal_display, h1, hs, dinsert,
      Bind.bind, Except.bind]
  · intro h1 h3
    have herr : journal_display k = .error .valueErrorUnpack := by
      rcases hs : pySplit '_' k with _ | ⟨y, _ | ⟨m, _ | ⟨d, _ | _⟩⟩⟩
      · simp [journal_display, h1, hs]
      · simp [journal_display, h1, hs]
      · simp [journal_display, h1, hs]
      · exact absurd (by simp [hs]) h3
      · simp [journal_display, h1, hs]
    simp [scan_pages, scanFold, scan_one_journal, herr, Bind.bind, Except.bind]
  · intro h1
    simp [scan_pages, scanFold, scan_one_journal, journal_display, h1, dinsert,
      Bind.bind, Except.bind]

/-- C4 witness: the three cases at the keys `2025_01_01`,
`2025_01_01_1` and `notes`. -/
theorem c4_journal_key_cases_witness :
    scan_pages false [] [("2025_01_01" : String)] =
      .ok [("2025_01_01", (create_notion_filename false
        ("2025" ++ "年" ++ "01" ++ "月" ++ "01" ++ "日") "", ""))] ∧
    scan_pages false [] [("2025_01_01_1" : String)] = .error .valueErrorUnpack ∧
    scan_pages false [] [("notes" : String)] =
      .ok [("notes", (create_notion_filename false ("notes") "", ""))] :=
  ⟨(c4_journal_key_cases ("2025_01_01")).1 rfl ("2025") ("01") ("01") (by decide),
   (c4_journal_key_cases ("2025_01_01_1")).2.1 rfl (by decide),
   (c4_journal_key_cases ("notes")).2.2 rfl⟩

/-- C5 counterexample: with the empty registry and the input
`[[[[a]]]]`, the Content Transformer is not idempotent — the second
application changes the text again. -/
theorem c5_counterexample :
    transform_text [] (transform_text [] ("[[[[a]]]]")) ≠
      transform_text [] ("[[[[a]]]]") := by
  decide

/-- C5 (amended): applying the Content Transformer twice does not in
general yield the text of a single application.  A double-bracket
reference whose enclosed name itself begins with double brackets leaves,
after one pass, an unresolved anchor placeholder whose `#`-target
re-combines with the leftover closing brackets into a fresh
double-bracket reference, which the second pass rewrites again: on
`[[[[a]]]]` the first pass produces `[[[a](#[[a)]]` and the second pass
produces the different text `[[[a](#[a)](#a))`. -/
theorem c5_two_passes_differ :
    transform_text [] ("[[[[a]]]]") = ("[[[a](#[[a)]]") ∧
    transform_text [] ("[[[a](#[[a)]]") = ("[[[a](#[a)](#a))") ∧
    ("[[[a](#[a)](#a))" : String) ≠ ("[[[a](#[[a)]]" : String) :=
  ⟨rfl, rfl, by decide⟩

/-! ### convert_all_pages lemmas -/

theorem cap_step_written {reg : Registry} {wo : String → Bool}
    {acc : List (String × String) × List LogEvent} {f : MDFile}
    {e : String × String} (h : e ∈ (cap_step reg wo acc f).1) :
    e ∈ acc.1 ∨ (wo e.1 = true ∧ e.2 = transform_text reg f.body) := by
  unfold cap_step at h
  split at h
  next fn uu heq =>
    rcases hw : wo fn with _ | _ <;>
      simp [convert_file, hw] at h
    · exact Or.inl h
    · rcases h with h | h
      · exact Or.inl h
      · subst h
        exact Or.inr ⟨hw, rfl⟩
  next => exact Or.inl h

theorem cap_foldl_written {reg : Registry} {wo : String → Bool}
    (fs : List MDFile) (acc : List (String × String) × List LogEvent)
    {e : String × String} (h : e ∈ (fs.foldl (cap_step reg wo) acc).1) :
    e ∈ acc.1 ∨ ∃ f ∈ fs, wo e.1 = true ∧ e.2 = transform_text reg f.body := by
  induction fs generalizing acc with
  | nil => exact Or.inl h
  | cons f rest ih =>
    rcases ih (cap_step reg wo acc f) h with h2 | h2
    · rcases cap_step_written h2 with h3 | h3
      · exact Or.inl h3
      · exact Or.inr ⟨f, by simp, h3⟩
    · obtain ⟨g, hg, h3⟩ := h2
      exact Or.inr ⟨g, by simp [hg], h3⟩

theorem cap_step_logs_mono {reg : Registry} {wo : String → Bool}
    {acc : List (String × String) × List LogEvent} {f : MDFile}
    {ev : LogEvent} (h : ev ∈ acc.2) : ev ∈ (cap_step reg wo acc f).2 := by
  unfold cap_step
  split
  · simp [h]
  · exact h

theorem cap_foldl_logs_mono {reg : Registry} {wo : String → Bool}
    (fs : List MDFile) (acc : List (String × String) × List LogEvent)
    {ev : LogEvent} (h : ev ∈ acc.2) : ev ∈ (fs.foldl (cap_step reg wo) acc).2 := by
  induction fs generalizing acc with
  | nil => exact h
  | cons f rest ih => exact ih _ (cap_step_logs_mono h)

theorem cap_step_fail_log {reg : Registry} {wo : String → Bool}
    {acc : List (String × String) × List LogEvent} {f : MDFile} {fn : String}
    {uu : String} (hl : dlookup f.stem reg = some (fn, uu)) (hw : wo fn = false) :
    LogEvent.convertFileFailed f.stem ∈ (cap_step reg wo acc f).2 := by
  unfold cap_step
  rw [hl]
  simp [convert_file, hw]

theorem cap_foldl_fail_log {reg : Registry} {wo : String → Bool}
    (fs : List MDFile) (acc : List (String × String) × List LogEvent)
    {f : MDFile} (hf : f ∈ fs) {fn uu : String}
    (hl : dlookup f.stem reg = some (fn, uu)) (hw : wo fn = false) :
    LogEvent.convertFileFailed f.stem ∈ (fs.foldl (cap_step reg wo) acc).2 := by
  induction fs generalizing acc with
  | nil => simp at hf
  | cons g rest ih =>
    rcases List.mem_cons.1 hf with rfl | hf2
    · exact cap_foldl_logs_mono rest _ (cap_step_fail_log hl hw)
    · exact ih (cap_step reg wo acc g) hf2

/-- C7 counterexample: one page whose write fails — the write failure is
caught and logged and the run returns normally, but the reported total
is 1 while the output set is empty: the count does not reflect the
failed document's absence. -/
theorem c7_counterexample :
    (notion_convert false [⟨"A", "x"⟩] [] (fun _ => false)).map
        (fun r => (r.report_total, r.written.length, r.logs)) =
      .ok (1, 0, [.convertFileFailed ("A")]) := by
  rfl

/-- C7 (amended): a write failure for one document is caught, logged as
a per-file failure event, and the run continues — the document is
simply absent from the output set (only successfully written targets
appear in it) — but the final page count reported to the caller is the
registry size, `len(page_mapping)`, which is independent of write
failures and therefore does not reflect the document's absence. -/
theorem c7_report_ignores_failures (pages journals : List MDFile)
    (writeOk : String → Bool) (r : NotionResult)
    (hok : notion_convert false pages journals writeOk = .ok r) :
    r.report_total = r.registry.length ∧
    (∀ e ∈ r.written, writeOk e.1 = true) ∧
    (∀ f : MDFile, f ∈ pages ∨ f ∈ journals →
      ∀ fn uu, dlookup f.stem r.registry = some (fn, uu) → writeOk fn = false →
        LogEvent.convertFileFailed f.stem ∈ r.logs) := by
  unfold notion_convert at hok
  obtain ⟨reg, hreg, h2⟩ := bind_ok hok
  simp only [Except.ok.injEq] at h2
  subst h2
  refine ⟨rfl, ?_, ?_⟩
  · intro e he
    rcases cap_foldl_written (pages ++ journals) ([], []) he with h | h
    · simp at h
    · exact h.choose_spec.2.1
  · intro f hf fn uu hl hw
    exact cap_foldl_fail_log (pages ++ journals) ([], [])
      (List.mem_append.2 hf) hl hw

/-- C7 witness: the amended theorem applied to the failing-write run. -/
theorem c7_report_ignores_failures_witness :
    (1 = ([("A", (("A.md" : String), ("" : String)))] : Registry).length) ∧
    (∀ e ∈ ([] : List (String × String)), (fun _ => false) e.1 = true) ∧
    (∀ f : MDFile, f ∈ [(⟨"A", "x"⟩ : MDFile)] ∨ f ∈ ([] : List MDFile) →
      ∀ fn uu, dlookup f.stem ([("A", ("A.md", ""))] : Registry) = some (fn, uu) →
        (fun _ => false) fn = false →
        LogEvent.convertFileFailed f.stem ∈ [LogEvent.convertFileFailed ("A")]) :=
  c7_report_ignores_failures [⟨"A", "x"⟩] [] (fun _ => false)
    { registry := [("A", ("A.md", ""))], written := [],
      logs := [.convertFileFailed ("A")], report_total := 1 } (by rfl)

/-! ### sanitization lemmas (C8) -/

/-- the sanitization invariant on a filename: no path-hostile character
anywhere, and no dot or space at either end -/
def goodFilename (s : String) : Bool :=
  s.data.all (fun c => !isHostileCh c) &&
  (match s.data.head? with
   | some a => !isDotSpace a
   | none => true) &&
  (match s.data.getLast? with
   | some b => !isDotSpace b
   | none => true)

theorem head_dropWhile_false {p : Char → Bool} {l : List Char} {c : Char}
    (h : (l.dropWhile p).head? = some c) : p c = false := by
  induction l with
  | nil => simp [List.dropWhile] at h
  | cons a t ih =>
    rw [List.dropWhile_cons] at h
    split at h
    · exact ih h
    · simp at h
      subst h
      simp_all

theorem mem_of_mem_dropWhile {p : Char → Bool} {l : List Char} {c : Char}
    (h : c ∈ l.dropWhile p) : c ∈ l :=
  (List.dropWhile_sublist p (l := l)).subset h

/-- no character of a sanitized name is path-hostile -/
theorem sanitize_no_hostile (d : String) :
    ∀ c ∈ (sanitize_filename d).data, isHostileCh c = false := by
  intro c hc
  unfold sanitize_filename at hc
  simp only [List.mem_reverse] at hc
  have hc2 := mem_of_mem_dropWhile hc
  rw [List.mem_reverse] at hc2
  have hc3 := mem_of_mem_dropWhile hc2
  rw [List.mem_map] at hc3
  obtain ⟨a, _, ha⟩ := hc3
  by_cases hh : isHostileCh a = true
  · rw [hh] at ha
    simp at ha
    subst ha
    decide
  · simp at hh
    rw [hh] at ha
    simp at ha
    subst ha
    exact hh

/-- the head of the doubly-stripped list fails the stripping predicate -/
theorem strip_head {p : Char → Bool} (l : List Char) {c : Char}
    (h : ((l.dropWhile p).reverse.dropWhile p).reverse.head? = some c) :
    p c = false := by
  rw [List.head?_reverse] at h
  have hYr : ((l.dropWhile p).reverse.takeWhile p ++
      (l.dropWhile p).reverse.dropWhile p).getLast? = some c := by
    rw [List.getLast?_append, h]
    rfl
  rw [List.takeWhile_append_dropWhile, List.getLast?_reverse] at hYr
  exact head_dropWhile_false hYr

/-- the last element of the doubly-stripped list fails the stripping
predicate -/
theorem strip_last {p : Char → Bool} (l : List Char) {c : Char}
    (h : ((l.dropWhile p).reverse.dropWhile p).reverse.getLast? = some c) :
    p c = false := by
  rw [List.getLast?_reverse] at h
  exact head_dropWhile_false h

/-- the first character of a nonempty sanitized name is not a dot or a
space -/
theorem sanitize_head (d : String) {c : Char}
    (h : (sanitize_filename d).data.head? = some c) : isDotSpace c = false :=
  strip_head (d.data.map (fun c => if isHostileCh c then '_' else c)) h

/-- the last character of a nonempty sanitized name is not a dot or a
space -/
theorem sanitize_last (d : String) {c : Char}
    (h : (sanitize_filename d).data.getLast? = some c) : isDotSpace c = false :=
  strip_last (d.data.map (fun c => if isHostileCh c then '_' else c)) h

theorem string_mk_eq {l : List Char} {s : String} (h : l = s.data) :
    String.mk l = s := by
  cases s
  cases h
  rfl

theorem data_append (s t : String) : (s ++ t).data = s.data ++ t.data := rfl

/-- a nonempty sanitized name plus `.md` satisfies the full invariant -/
theorem create_filename_good (d : String) (hne : sanitize_filename d ≠ "") :
    goodFilename (create_notion_filename false d "") = true := by
  have hd : (sanitize_filename d).data ≠ [] := by
    intro hh
    apply hne
    have he : sanitize_filename d = String.mk (sanitize_filename d).data := rfl
    rw [he, hh]
  have hdata : (create_notion_filename false d "").data =
      (sanitize_filename d).data ++ ('.' :: 'm' :: 'd' :: []) := rfl
  unfold goodFilename
  rw [hdata]
  refine (by simp : ∀ a b c : Bool, a = true → b = true → c = true →
    (a && b && c) = true) _ _ _ ?_ ?_ ?_
  · rw [List.all_append]
    refine (by simp : ∀ a b : Bool, a = true → b = true → (a && b) = true) _ _ ?_ ?_
    · rw [List.all_eq_true]
      intro c hc
      simp [sanitize_no_hostile d c hc]
    · decide
  · rcases hhd : (sanitize_filename d).data with _ | ⟨a, as⟩
    · exact absurd hhd hd
    · simp only [List.cons_append, List.head?_cons]
      have := sanitize_head d (c := a) (by rw [hhd]; rfl)
      simp [this]
  · rw [List.getLast?_append]
    rfl

theorem dlookup_mem {k : String} {v : RegEntry} {reg : Registry}
    (h : dlookup k reg = some v) : (k, v) ∈ reg := by
  induction reg with
  | nil => simp [dlookup] at h
  | cons p t ih =>
    obtain ⟨k', v'⟩ := p
    unfold dlookup at h
    split at h
    next heq =>
      simp only [Option.some.injEq] at h
      subst h
      subst heq
      simp
    next => simp [ih h]

/-- C8 counterexample: a page file `..md` has stem `.`; sanitization
strips it to the empty name, so the completed registry maps the logical
key `.` to the filename `.md`, which begins with a dot. -/
theorem c8_counterexample :
    scan_pages false [("." : String)] [] = .ok [(".", (".md", ""))] ∧
    goodFilename (".md") = false :=
  ⟨by rfl, by decide⟩

/-- C8 (amended): `resolve(K)` is defined for every key of a completed
registry and returns the sanitized display name plus `.md`; whenever the
sanitized display name is nonempty, the filename contains no
path-hostile character and has no leading or trailing dot or space.
When sanitization strips the display name to the empty string (a name
of only dots and spaces) the filename is bare `.md`, which starts with
a dot. -/
theorem c8_registry_filenames (pages journals : List String) (reg : Registry)
    (hok : scan_pages false pages journals = .ok reg) (k : String) (v : RegEntry)
    (hv : dlookup k reg = some v) :
    ∃ d, v = (create_notion_filename false d "", "") ∧
      (sanitize_filename d ≠ "" → goodFilename v.1 = true) := by
  unfold scan_pages at hok
  obtain ⟨reg1, h1, h2⟩ := bind_ok hok
  have hm : (k, v) ∈ reg := dlookup_mem hv
  rcases scanFold_mem_shape stepShape_journal h2 hm with ⟨d, _, hvv⟩ | hmem1
  · refine ⟨d, hvv, fun hne => ?_⟩
    rw [hvv]
    exact create_filename_good d hne
  · rcases scanFold_mem_shape stepShape_page h1 hmem1 with hp | habs
    · refine ⟨k, hp, fun hne => ?_⟩
      rw [hp]
      exact create_filename_good k hne
    · simp at habs

/-- C8 witness: the filename invariant at the completed registry of a
single page `A`. -/
theorem c8_registry_filenames_witness :
    ∃ d, (("A.md" : String), ("" : String)) = (create_notion_filename false d "", "") ∧
      (sanitize_filename d ≠ "" →
        goodFilename ((("A.md" : String), ("" : String)) : RegEntry).1 = true) :=
  c8_registry_filenames [("A" : String)] [] [("A", ("A.md", ""))] (by rfl)
    ("A") ("A.md", "") (by rfl)

/-- C1 counterexample: in the team-template converter, scanning and
rewriting are interleaved.  With pages `A` (body `[[B]]`) and `B`
processed in that order, `A`'s body is rewritten while `B` still lacks
its registry entry: the emitted text for `A` ends in the bare
placeholder `[B]` and nowhere references `B`'s new name `B.md`, even
though `B` is scannable and the completed mapping assigns it `B.md`. -/
theorem c1_team_counterexample :
    (scan_and_convert_pages false (fun _ => "") (fun _ => true) (fun _ => true)
        [⟨"A", "[[B]]"⟩, ⟨"B", ""⟩] []).map
      (fun st => (st.written, st.page_mapping)) =
      .ok ([("A.md",
             "# A\n\nCreated by: LogSeq导入\n状态: Not started\n页面类型: 文章\n摘要: [[B]]\n\n---\n\n[B]"),
            ("B.md",
             "# B\n\nCreated by: LogSeq导入\n状态: Not started\n页面类型: 文章\n\n---\n\n")],
           [("A", ("A.md", "")), ("B", ("B.md", ""))]) ∧
    containsSeq ("B.md").data
      ("# A\n\nCreated by: LogSeq导入\n状态: Not started\n页面类型: 文章\n摘要: [[B]]\n\n---\n\n[B]").data
      = false :=
  ⟨by rfl, by decide⟩

/-- C1 (amended): the notion converter is genuinely two-phase — in any
successful run the registry handed to the conversion phase already
contains an entry for every scannable page and journal stem, and every
written document body is the transformation of its source body against
that total registry.  The team-template converter (the counterexample)
interleaves scanning with rewriting, so there a reference to a
not-yet-processed document degrades to a bare bracketed name instead of
the target's new name. -/
theorem c1_notion_two_phase (pages journals : List MDFile)
    (writeOk : String → Bool) (r : NotionResult)
    (hok : notion_convert false pages journals writeOk = .ok r) :
    (∀ f : MDFile, f ∈ pages ∨ f ∈ journals →
      (dlookup f.stem r.registry).isSome = true) ∧
    (∀ e ∈ r.written, ∃ f : MDFile, (f ∈ pages ∨ f ∈ journals) ∧
      e.2 = transform_text r.registry f.body) := by
  unfold notion_convert at hok
  obtain ⟨reg, hreg, h2⟩ := bind_ok hok
  simp only [Except.ok.injEq] at h2
  subst h2
  unfold scan_pages at hreg
  obtain ⟨reg1, hp1, hp2⟩ := bind_ok hreg
  constructor
  · intro f hf
    rcases hf with hf | hf
    · exact scanFold_isSome_mono stepInserts_journal hp2
        (scanFold_isSome_of_mem stepInserts_page hp1
          (List.mem_map_of_mem MDFile.stem hf))
    · exact scanFold_isSome_of_mem stepInserts_journal hp2
        (List.mem_map_of_mem MDFile.stem hf)
  · intro e he
    rcases cap_foldl_written (pages ++ journals) ([], []) he with h | h
    · simp at h
    · obtain ⟨f, hf, _, hbody⟩ := h
      exact ⟨f, List.mem_append.1 hf, hbody⟩

/-- C1 witness: in the two-page notion run (`A` links forward to `B`),
the registry used for rewriting contains `B` — a forward reference
resolves. -/
theorem c1_notion_two_phase_witness :
    (dlookup (MDFile.stem ⟨"B", ""⟩)
      (NotionResult.registry
        { registry := [("A", ("A.md", "")), ("B", ("B.md", ""))],
          written := [("A.md", "[B](B.md)"), ("B.md", "")],
          logs := [.convertFileDone ("A"), .convertFileDone ("B")],
          report_total := 2 })).isSome = true :=
  (c1_notion_two_phase [⟨"A", "[[B]]"⟩, ⟨"B", ""⟩] [] (fun _ => true)
      { registry := [("A", ("A.md", "")), ("B", ("B.md", ""))],
        written := [("A.md", "[B](B.md)"), ("B.md", "")],
        logs := [.convertFileDone ("A"), .convertFileDone ("B")],
        report_total := 2 } (by rfl)).1 ⟨"B", ""⟩ (Or.inl (by simp))

/-! ### convert_links lemmas (C6) -/

theorem tryImage_none_of_head {c : Char} (t : List Char) (h : c ≠ '!') :
    tryImage (c :: t) = none := by
  cases hc : tryImage (c :: t) with
  | none => rfl
  | some x =>
    exfalso
    unfold tryImage at hc
    split at hc
    next r heq =>
      injection heq with h1 h2
      exact h h1
    next => simp at hc

/-- the image substitution is the identity on text containing no `!` -/
theorem subImagesF_no_bang (fuel : Nat) (l : List Char)
    (h : ∀ c ∈ l, c ≠ '!') : subImagesF fuel l = l := by
  induction fuel generalizing l with
  | zero => rfl
  | succ fuel ih =>
    cases l with
    | nil => rfl
    | cons c t =>
      unfold subImagesF
      rw [tryImage_none_of_head t (h c (by simp))]
      rw [ih t (fun d hd => h d (by simp [hd]))]

/-- the page-link pattern fires on `[[name]]` followed by anything, for
any nonempty name free of `]` -/
theorem tryPageLink_at (name : List Char) (rest : List Char) (hne : name ≠ [])
    (hnb : ∀ c ∈ name, c ≠ ']') :
    tryPageLink ('[' :: '[' :: (name ++ ']' :: ']' :: rest)) = some (name, rest) := by
  have ht : (name ++ ']' :: ']' :: rest).takeWhile (fun c => decide (c ≠ ']')) = name := by
    rw [List.takeWhile_append_of_pos (by intro a ha; simp [hnb a ha])]
    simp
  have hd : (name ++ ']' :: ']' :: rest).dropWhile (fun c => decide (c ≠ ']')) =
      ']' :: ']' :: rest := by
    rw [List.dropWhile_append_of_pos (by intro a ha; simp [hnb a ha])]
    simp
  simp only [tryPageLink]
  rw [ht, hd]
  cases name with
  | nil => exact absurd rfl hne
  | cons a as => simp

theorem subPageLinksF_nil (reg : Registry) (fuel : Nat) :
    subPageLinksF reg fuel [] = ([], []) := by
  cases fuel <;> rfl

/-- one unresolved `[[name]]`, standing alone, under any sufficient
fuel -/
theorem subPageLinksF_single (reg : Registry) (name : List Char) (fuel : Nat)
    (hne : name ≠ []) (hnb : ∀ c ∈ name, c ≠ ']')
    (hmiss : dlookup (⟨name⟩ : String) reg = none) :
    subPageLinksF reg (fuel + 1) ('[' :: '[' :: (name ++ ']' :: ']' :: [])) =
      ('[' :: (name ++ ']' :: '(' :: '#' :: name ++ [')']),
       [LogEvent.pageNotFound (⟨name⟩ : String)]) := by
  rw [subPageLinksF]
  rw [tryPageLink_at name [] hne hnb]
  simp only [replace_page_link, hmiss, subPageLinksF_nil]
  simp

/-- C6 counterexample: the team-template converter's `convert_links`
rewrites an unresolved cross-reference to the bare bracketed name —
not an anchor-style placeholder — and contains no logging call at all,
so no warning is produced. -/
theorem c6_team_counterexample :
    convert_links_team false [] ("[[X]]") = ("[X]") ∧
    ("[X]" : String) ≠ ("[X](#X)" : String) :=
  ⟨by rfl, by decide⟩

/-- C6 (amended): in the notion converter's `convert_links`, a
double-bracket reference whose name has no registry entry becomes the
anchor-style placeholder `[name](#name)` and exactly one warning is
logged for the miss, and the function returns normally; in the
team-template converter's `convert_links` (the counterexample) the same
miss becomes the bare `[name]` with no warning. -/
theorem c6_unresolved_reference (reg : Registry) (name : String)
    (hne : name ≠ "") (hnb : ∀ c ∈ name.data, c ≠ ']')
    (hbang : ∀ c ∈ name.data, c ≠ '!')
    (hmiss : dlookup name reg = none) :
    convert_links reg ("[[" ++ name ++ "]]") =
      ("[" ++ name ++ "](#" ++ name ++ ")", [.pageNotFound name]) := by
  have hdata : ("[[" ++ name ++ "]]").data =
      '[' :: '[' :: (name.data ++ ']' :: ']' :: []) := by
    rw [data_append, data_append]
    rfl
  have hdne : name.data ≠ [] := by
    intro hh
    apply hne
    have he : name = String.mk name.data := rfl
    rw [he, hh]
  have hmiss2 : dlookup (⟨name.data⟩ : String) reg = none := hmiss
  have hrun : subPageLinks reg ("[[" ++ name ++ "]]").data =
      ('[' :: (name.data ++ ']' :: '(' :: '#' :: name.data ++ [')']),
       [LogEvent.pageNotFound name]) := by
    unfold subPageLinks
    rw [hdata]
    rw [show ('[' :: '[' :: (name.data ++ ']' :: ']' :: [])).length =
      (name.data.length + 3) + 1 from by
        simp only [List.length_cons, List.length_append, List.length_nil]]
    have := subPageLinksF_single reg name.data (name.data.length + 3) hdne hnb hmiss2
    rw [this]
  have hnobang : ∀ c ∈ '[' :: (name.data ++ ']' :: '(' :: '#' :: name.data ++ [')']),
      c ≠ '!' := by
    intro c hc hrfl
    subst hrfl
    simp only [List.mem_cons, List.mem_append, List.mem_singleton] at hc
    rcases hc with h | (h | h | h | h | h) | h | h
    · exact absurd h (by decide)
    · exact hbang _ h rfl
    · exact absurd h (by decide)
    · exact absurd h (by decide)
    · exact absurd h (by decide)
    · exact hbang _ h rfl
    · exact absurd h (by decide)
    · simp at h
  unfold convert_links
  rw [hrun]
  show ((⟨subImages ('[' :: (name.data ++ ']' :: '(' :: '#' :: name.data ++ [')']))⟩ : String),
      ([LogEvent.pageNotFound name] : List LogEvent)) = _
  unfold subImages
  rw [subImagesF_no_bang _ _ hnobang]
  refine Prod.ext ?_ rfl
  apply string_mk_eq
  rw [data_append, data_append, data_append]
  simp

/-- C6 witness: the unresolved reference `[[X]]` against the empty
registry. -/
theorem c6_unresolved_reference_witness :
    convert_links [] ("[[X]]") =
      ("[" ++ ("X") ++ "](#" ++ ("X") ++ ")", [.pageNotFound ("X")]) :=
  c6_unresolved_reference [] ("X") (by decide) (by decide) (by decide) (by rfl)

/-! ### block-reference elimination (C9) -/

/-- a residual block-reference token: some suffix of the text matches
the pattern of `tryBlockRef` -/
def hasBlockRef : List Char → Bool
  | [] => false
  | c :: t => (tryBlockRef (c :: t)).isSome || hasBlockRef t

/-- the block-reference pattern needs an opening parenthesis first -/
theorem tryBlockRef_none_of_head {c : Char} (t : List Char) (h : c ≠ '(') :
    tryBlockRef (c :: t) = none := by
  match t with
  | [] => rfl
  | [_] => rfl
  | c2 :: c3 :: r =>
    unfold tryBlockRef
    simp [h]

/-- text free of opening parentheses in front does not change the
presence of a block-reference token -/
theorem hasBlockRef_append_no_lparen : ∀ (p : List Char),
    (∀ a ∈ p, a ≠ '(') → ∀ x, hasBlockRef (p ++ x) = hasBlockRef x := by
  intro p
  induction p with
  | nil => intro _ x; rfl
  | cons a p2 ih =>
    intro hp x
    show hasBlockRef (a :: (p2 ++ x)) = _
    simp only [hasBlockRef]
    rw [tryBlockRef_none_of_head (p2 ++ x) (hp a (List.mem_cons_self a p2))]
    simp only [Option.isSome_none, Bool.false_or]
    exact ih (fun d hd => hp d (List.mem_cons_of_mem a hd)) x

/-- a suffix of token-free text is token-free -/
theorem hasBlockRef_of_append : ∀ (p s : List Char),
    hasBlockRef (p ++ s) = false → hasBlockRef s = false := by
  intro p
  induction p with
  | nil => intro s h; exact h
  | cons a p2 ih =>
    intro s h
    rw [List.cons_append] at h
    simp only [hasBlockRef, Bool.or_eq_false_iff] at h
    exact ih s h.2

/-- a successful block-reference match decomposes the text as three
opening parentheses, a nonempty hexadecimal run and three closing
parentheses before the remainder -/
theorem tryBlockRef_some_decomp {l rest : List Char}
    (h : tryBlockRef l = some rest) :
    ∃ run, run ≠ [] ∧ (∀ c ∈ run, isBlockRefCh c = true) ∧
      l = '(' :: '(' :: '(' :: (run ++ ')' :: ')' :: ')' :: rest) := by
  unfold tryBlockRef at h
  split at h
  next c1 c2 c3 r =>
    split at h
    next hg =>
      split at h
      next a run2 d1 d2 d3 rest2 htw hdw =>
        split at h
        next hg2 =>
          simp only [Option.some.injEq] at h
          subst h
          simp only [Bool.and_eq_true, decide_eq_true_eq] at hg hg2
          obtain ⟨⟨e1, e2⟩, e3⟩ := hg
          obtain ⟨⟨f1, f2⟩, f3⟩ := hg2
          subst e1; subst e2; subst e3; subst f1; subst f2; subst f3
          refine ⟨a :: run2, by simp, ?_, ?_⟩
          · intro c hc
            rw [← htw] at hc
            exact List.mem_takeWhile_imp hc
          · have hr : r = (a :: run2) ++ ')' :: ')' :: ')' :: rest2 := by
              rw [← htw, ← hdw]
              exact (List.takeWhile_append_dropWhile _ _).symm
            rw [hr]
        next => simp at h
      next => simp at h
    next => simp at h
  next => simp at h

/-- the converse: any such decomposition makes the match fire -/
theorem tryBlockRef_of_decomp (run rest : List Char) (hne : run ≠ [])
    (hall : ∀ c ∈ run, isBlockRefCh c = true) :
    tryBlockRef ('(' :: '(' :: '(' :: (run ++ ')' :: ')' :: ')' :: rest)) =
      some rest := by
  have ht : (run ++ ')' :: ')' :: ')' :: rest).takeWhile isBlockRefCh = run := by
    rw [List.takeWhile_append_of_pos hall]
    simp [isBlockRefCh, isDigitCh]
  have hd : (run ++ ')' :: ')' :: ')' :: rest).dropWhile isBlockRefCh =
      ')' :: ')' :: ')' :: rest := by
    rw [List.dropWhile_append_of_pos hall]
    simp [isBlockRefCh, isDigitCh]
  simp only [tryBlockRef]
  rw [ht, hd]
  cases run with
  | nil => exact absurd rfl hne
  | cons a as => simp

/-- one step of the block-reference pass on a successful match -/
theorem subBlockRefF_step (fuel : Nat) (l rest : List Char)
    (hm : tryBlockRef l = some rest) :
    subBlockRefF (fuel + 1) l = ("> [引用块]").data ++ subBlockRefF fuel rest := by
  cases l with
  | nil => simp [tryBlockRef] at hm
  | cons c t =>
    conv_lhs => unfold subBlockRefF
    rw [hm]

/-- one step of the block-reference pass on a failed match -/
theorem subBlockRefF_step_none (fuel : Nat) (c : Char) (t : List Char)
    (hm : tryBlockRef (c :: t) = none) :
    subBlockRefF (fuel + 1) (c :: t) = c :: subBlockRefF fuel t := by
  conv_lhs => unfold subBlockRefF
  rw [hm]

/-- one step of the query pass on a successful match -/
theorem subQueryF_step (fuel : Nat) (l rest : List Char)
    (hm : tryQuery l = some rest) :
    subQueryF (fuel + 1) l =
      ("<!-- LogSeq查询已移除 -->").data ++ subQueryF fuel rest := by
  cases l with
  | nil => simp [tryQuery] at hm
  | cons c t =>
    conv_lhs => unfold subQueryF
    rw [hm]

/-- one step of the query pass on a failed match -/
theorem subQueryF_step_none (fuel : Nat) (c : Char) (t : List Char)
    (hm : tryQuery (c :: t) = none) :
    subQueryF (fuel + 1) (c :: t) = c :: subQueryF fuel t := by
  conv_lhs => unfold subQueryF
  rw [hm]

/-- if a list plus remainder equals a list with a marked character the
marked list lacks, the first list is a left factor of the part before
the mark -/
theorem left_factor_of_excluded {x : Char} :
    ∀ (m p s r : List Char), m ++ r = p ++ x :: s → x ∉ m →
      ∃ q, p = m ++ q := by
  intro m
  induction m with
  | nil => intro p s r _ _; exact ⟨p, rfl⟩
  | cons a m2 ih =>
    intro p s r heq hx
    cases p with
    | nil =>
      rw [List.nil_append] at heq
      rw [List.cons_append] at heq
      injection heq with h1 h2
      exact absurd (h1 ▸ List.mem_cons_self a m2) hx
    | cons b p2 =>
      rw [List.cons_append, List.cons_append] at heq
      injection heq with h1 h2
      obtain ⟨q, hq⟩ := ih p2 s r h2 (fun hm => hx (List.mem_cons_of_mem a hm))
      refine ⟨q, ?_⟩
      rw [hq, ← h1]
      rfl

/-- failure of the block-reference match is stable when the text beyond
a shared front is replaced by text opening with a character the pattern
cannot consume -/
theorem tryBlockRef_none_transfer {c x : Char} {q s z : List Char}
    (hx1 : x ≠ '(') (hx2 : x ≠ ')') (hx3 : isBlockRefCh x = false)
    (h : tryBlockRef (c :: (q ++ s)) = none) :
    tryBlockRef (c :: (q ++ x :: z)) = none := by
  cases hc : tryBlockRef (c :: (q ++ x :: z)) with
  | none => rfl
  | some rest =>
    exfalso
    obtain ⟨run, hne, hall, hdec⟩ := tryBlockRef_some_decomp hc
    injection hdec with h1 h2
    have h3 : ('(' :: '(' :: (run ++ [')', ')', ')'])) ++ rest = q ++ x :: z := by
      rw [h2]
      simp
    have hxm : x ∉ ('(' :: '(' :: (run ++ [')', ')', ')'])) := by
      intro hm
      simp only [List.mem_cons, List.mem_append, List.mem_singleton,
        List.not_mem_nil, or_false] at hm
      rcases hm with hm | hm | hm | hm | hm | hm
      · exact hx1 hm
      · exact hx1 hm
      · rw [hall x hm] at hx3
        exact Bool.true_eq_false.mp hx3
      · exact hx2 hm
      · exact hx2 hm
      · exact hx2 hm
    obtain ⟨qq, hqq⟩ := left_factor_of_excluded _ q z rest h3 hxm
    have hfire : tryBlockRef (c :: (q ++ s)) = some (qq ++ s) := by
      rw [h1, hqq]
      have hsh : '(' :: ((('(' :: '(' :: (run ++ [')', ')', ')'])) ++ qq) ++ s) =
          '(' :: '(' :: '(' :: (run ++ ')' :: ')' :: ')' :: (qq ++ s)) := by
        simp
      rw [hsh]
      exact tryBlockRef_of_decomp run (qq ++ s) hne hall
    rw [h] at hfire
    exact Option.noConfusion hfire

/-- the block-reference pass either returns its input unchanged or
turns the first matched opening parenthesis into the placeholder
opening `>` after an untouched front -/
theorem subBlockRefF_shape : ∀ (fuel : Nat) (l : List Char),
    subBlockRefF fuel l = l ∨
    ∃ q w z, l = q ++ '(' :: w ∧ subBlockRefF fuel l = q ++ '>' :: z := by
  intro fuel
  induction fuel with
  | zero => intro l; exact Or.inl rfl
  | succ fuel ih =>
    intro l
    cases l with
    | nil => exact Or.inl rfl
    | cons c t =>
      cases hm : tryBlockRef (c :: t) with
      | some rest =>
        obtain ⟨run, hne, hall, hdec⟩ := tryBlockRef_some_decomp hm
        injection hdec with h1 h2
        refine Or.inr ⟨[], t, (" [引用块]").data ++ subBlockRefF fuel rest,
          by rw [h1]; rfl, ?_⟩
        rw [subBlockRefF_step fuel (c :: t) rest hm]
        have hph : ("> [引用块]").data = '>' :: (" [引用块]").data := by rfl
        rw [hph]
        rfl
      | none =>
        rcases ih t with heq | ⟨q, w, z, ht, hsub⟩
        · refine Or.inl ?_
          rw [subBlockRefF_step_none fuel c t hm, heq]
        · refine Or.inr ⟨c :: q, w, z, by rw [ht]; rfl, ?_⟩
          rw [subBlockRefF_step_none fuel c t hm, hsub]
          rfl

/-- with enough fuel the block-reference pass leaves no residual
block-reference token -/
theorem hasBlockRef_subBlockRefF : ∀ (fuel : Nat) (l : List Char),
    l.length ≤ fuel → hasBlockRef (subBlockRefF fuel l) = false := by
  intro fuel
  induction fuel with
  | zero =>
    intro l hl
    have hnil : l = [] := List.eq_nil_of_length_eq_zero (Nat.le_zero.1 hl)
    rw [hnil]
    rfl
  | succ fuel ih =>
    intro l hl
    cases l with
    | nil => rfl
    | cons c t =>
      simp only [List.length_cons] at hl
      cases hm : tryBlockRef (c :: t) with
      | some rest =>
        rw [subBlockRefF_step fuel (c :: t) rest hm]
        rw [hasBlockRef_append_no_lparen ("> [引用块]").data (by decide)]
        have hlen := tryBlockRef_length hm
        simp only [List.length_cons] at hlen
        exact ih rest (by omega)
      | none =>
        rw [subBlockRefF_step_none fuel c t hm]
        have hY : hasBlockRef (subBlockRefF fuel t) = false := ih t (by omega)
        have hnone : tryBlockRef (c :: subBlockRefF fuel t) = none := by
          rcases subBlockRefF_shape fuel t with heq | ⟨q, w, z, ht, hsub⟩
          · rw [heq]
            exact hm
          · rw [hsub]
            rw [ht] at hm
            exact tryBlockRef_none_transfer (by decide) (by decide) (by decide) hm
        simp only [hasBlockRef, hnone, hY, Option.isSome_none, Bool.or_false]

/-- a successful query match opens with a brace and consumes an initial
segment of the text -/
theorem tryQuery_some_decomp {c : Char} {t rest : List Char}
    (h : tryQuery (c :: t) = some rest) :
    c = obrace ∧ ∃ p, t = p ++ rest := by
  unfold tryQuery at h
  split at h
  next c1 c2 r heq =>
    injection heq with he1 he2
    subst he1
    subst he2
    split at h
    next hg =>
      split at h
      next a run2 d1 d2 rest2 htw hdw =>
        split at h
        next hg2 =>
          simp only [Option.some.injEq] at h
          subst h
          simp only [Bool.and_eq_true, decide_eq_true_eq] at hg
          refine ⟨hg.1, c2 :: ((a :: run2) ++ [d1, d2]), ?_⟩
          have hr : r = (a :: run2) ++ d1 :: d2 :: rest2 := by
            rw [← htw, ← hdw, List.takeWhile_append_dropWhile]
          rw [hr]
          simp
        next => simp at h
      next => simp at h
    next => simp at h
  next => simp at h

/-- the query pass either returns its input unchanged or turns the
first matched opening brace into the placeholder opening `<` after an
untouched front -/
theorem subQueryF_shape : ∀ (fuel : Nat) (l : List Char),
    subQueryF fuel l = l ∨
    ∃ q w z, l = q ++ obrace :: w ∧ subQueryF fuel l = q ++ '<' :: z := by
  intro fuel
  induction fuel with
  | zero => intro l; exact Or.inl rfl
  | succ fuel ih =>
    intro l
    cases l with
    | nil => exact Or.inl rfl
    | cons c t =>
      cases hm : tryQuery (c :: t) with
      | some rest =>
        obtain ⟨hc, p, hp⟩ := tryQuery_some_decomp hm
        refine Or.inr ⟨[], t, ("!-- LogSeq查询已移除 -->").data ++ subQueryF fuel rest,
          by rw [hc]; rfl, ?_⟩
        rw [subQueryF_step fuel (c :: t) rest hm]
        have hph : ("<!-- LogSeq查询已移除 -->").data =
            '<' :: ("!-- LogSeq查询已移除 -->").data := by rfl
        rw [hph]
        rfl
      | none =>
        rcases ih t with heq | ⟨q, w, z, ht, hsub⟩
        · refine Or.inl ?_
          rw [subQueryF_step_none fuel c t hm, heq]
        · refine Or.inr ⟨c :: q, w, z, by rw [ht]; rfl, ?_⟩
          rw [subQueryF_step_none fuel c t hm, hsub]
          rfl

/-- the query pass never creates a block-reference token -/
theorem hasBlockRef_subQueryF : ∀ (fuel : Nat) (l : List Char),
    hasBlockRef l = false → hasBlockRef (subQueryF fuel l) = false := by
  intro fuel
  induction fuel with
  | zero => intro l h; exact h
  | succ fuel ih =>
    intro l h
    cases l with
    | nil => rfl
    | cons c t =>
      simp only [hasBlockRef, Bool.or_eq_false_iff] at h
      obtain ⟨h1, h2⟩ := h
      have h1n : tryBlockRef (c :: t) = none := by
        cases ho : tryBlockRef (c :: t) with
        | none => rfl
        | some v =>
          rw [ho] at h1
          simp at h1
      cases hq : tryQuery (c :: t) with
      | some rest =>
        rw [subQueryF_step fuel (c :: t) rest hq]
        obtain ⟨hc, p, hp⟩ := tryQuery_some_decomp hq
        rw [hasBlockRef_append_no_lparen ("<!-- LogSeq查询已移除 -->").data (by decide)]
        apply ih
        rw [hp] at h2
        exact hasBlockRef_of_append p rest h2
      | none =>
        rw [subQueryF_step_none fuel c t hq]
        have hY := ih t h2
        have hnone : tryBlockRef (c :: subQueryF fuel t) = none := by
          rcases subQueryF_shape fuel t with heq | ⟨q, w, z, ht, hsub⟩
          · rw [heq]
            exact h1n
          · rw [hsub]
            rw [ht] at h1n
            exact tryBlockRef_none_transfer (by decide) (by decide) (by decide) h1n
        simp only [hasBlockRef, hnone, hY, Option.isSome_none, Bool.or_false]

/-- the block-reference pass does not depend on its fuel once the fuel
covers the text length -/
theorem subBlockRefF_fuel_eq : ∀ (f1 f2 : Nat) (l : List Char),
    l.length ≤ f1 → l.length ≤ f2 → subBlockRefF f1 l = subBlockRefF f2 l := by
  intro f1
  induction f1 with
  | zero =>
    intro f2 l h1 _
    have hnil : l = [] := List.eq_nil_of_length_eq_zero (Nat.le_zero.1 h1)
    subst hnil
    cases f2 <;> rfl
  | succ f1 ih =>
    intro f2 l h1 h2
    cases l with
    | nil => cases f2 <;> rfl
    | cons c t =>
      cases f2 with
      | zero => simp at h2
      | succ f2 =>
        simp only [List.length_cons] at h1 h2
        cases hm : tryBlockRef (c :: t) with
        | some rest =>
          rw [subBlockRefF_step f1 (c :: t) rest hm,
            subBlockRefF_step f2 (c :: t) rest hm]
          have hlen := tryBlockRef_length hm
          simp only [List.length_cons] at hlen
          rw [ih f2 rest (by omega) (by omega)]
        | none =>
          rw [subBlockRefF_step_none f1 c t hm, subBlockRefF_step_none f2 c t hm]
          rw [ih f2 t (by omega) (by omega)]

/-- C9: every block-reference token — three opening parentheses, a
nonempty run of the class `[a-f0-9-]`, three closing parentheses — is
replaced by `convert_logseq_syntax` with the generic quote placeholder
`> [引用块]`: the converter output never retains such a token (so no
referenced block content is ever inlined in its place), and each
occurrence is rewritten to exactly the fixed placeholder followed by
the converted remainder. -/
theorem c9_block_refs_collapsed :
    (∀ content : String,
      hasBlockRef (convert_logseq_markup content).data = false) ∧
    (∀ run rest : List Char, run ≠ [] → (∀ c ∈ run, isBlockRefCh c = true) →
      subBlockRef ('(' :: '(' :: '(' :: (run ++ ')' :: ')' :: ')' :: rest)) =
        ("> [引用块]").data ++ subBlockRef rest) := by
  constructor
  · intro content
    show hasBlockRef (subQuery (subBlockRef (subPropGo true
      (subTaskGo ("NOW").data ("- [ ] ").data true
        (subTaskGo ("LATER").data ("- [ ] ").data true
          (subTaskGo ("TODO").data ("- [ ] ").data true
            (subTaskGo ("DONE").data ("- [x] ").data true content.data))))))) = false
    exact hasBlockRef_subQueryF _ _ (hasBlockRef_subBlockRefF _ _ (le_refl _))
  · intro run rest hne hall
    have hm := tryBlockRef_of_decomp run rest hne hall
    unfold subBlockRef
    rw [List.length_cons]
    rw [subBlockRefF_step _ _ _ hm]
    congr 1
    apply subBlockRefF_fuel_eq
    · simp only [List.length_cons, List.length_append]
      omega
    · exact le_refl rest.length

/-- C9 witness: a concrete body and a concrete token. -/
theorem c9_block_refs_collapsed_witness :
    hasBlockRef (convert_logseq_markup ("see (((abc-123))) and ((x))")).data = false ∧
    subBlockRef ('(' :: '(' :: '(' :: (("ab12").data ++ ')' :: ')' :: ')' :: ("tail").data)) =
      ("> [引用块]").data ++ subBlockRef ("tail").data :=
  ⟨c9_block_refs_collapsed.1 ("see (((abc-123))) and ((x))"),
   c9_block_refs_collapsed.2 ("ab12").data ("tail").data (by decide) (by decide)⟩

/-! ### team-run lemmas (C10) -/

theorem append_ne_self {s t : String} (h : s.length ≠ 0) : s ++ t ≠ t := by
  intro hh
  have h2 := congrArg String.length hh
  rw [String.length_append] at h2
  omega

/-- an assembled page is never the converted body alone: the header in
front is nonempty -/
theorem page_content_ne_links (withUuid : Bool) (m : Registry)
    (pn pt sd content summ : String) :
    create_notion_page_content withUuid m pn pt sd content summ ≠
      convert_links_team withUuid m content := by
  unfold create_notion_page_content
  apply append_ne_self
  simp only [String.length_append]
  have h2 : ("# " : String).length = 2 := rfl
  omega

/-- inversion of one `process_page_file` call: either nothing was
written (skip, read failure, or write failure), or exactly one page was
appended, assembled by `create_notion_page` from the display name, page
type, start date, raw body and summary of the processed file. -/
theorem process_page_file_ok {withUuid : Bool} {uu : String}
    {readOk writeOk : String → Bool} {coll : Collection} {f : MDFile}
    {st st' : TeamState}
    (h : process_page_file withUuid uu readOk writeOk coll f st = .ok st') :
    st'.written = st.written ∨
    ∃ pn sd fn m,
      (determine_page_type coll f.stem = "日志" →
        convert_date_format f.stem = .ok (pn, sd)) ∧
      (determine_page_type coll f.stem ≠ "日志" → pn = f.stem ∧ sd = "") ∧
      st'.written = st.written ++
        [(fn, create_notion_page_content withUuid m pn
          (determine_page_type coll f.stem) sd f.body (extract_summary f.body))] := by
  unfold process_page_file at h
  split at h
  · simp only [Except.ok.injEq] at h
    subst h
    exact Or.inl rfl
  · simp only [] at h
    split at h
    next hpt =>
      obtain ⟨dd, hdd, h2⟩ := bind_ok h
      split at h2
      · simp only [Except.ok.injEq] at h2
        subst h2
        by_cases hwo : writeOk (create_notion_filename withUuid dd.1
            (if withUuid then uu else ""))
        · refine Or.inr ⟨dd.1, dd.2,
            create_notion_filename withUuid dd.1 (if withUuid then uu else ""),
            dinsert f.stem
              (create_notion_filename withUuid dd.1 (if withUuid then uu else ""),
               if withUuid then uu else "") st.page_mapping,
            fun _ => by rw [hdd], fun hc => absurd hpt hc, ?_⟩
          simp [hwo]
        · refine Or.inl ?_
          simp [hwo]
      · simp only [Except.ok.injEq] at h2
        subst h2
        exact Or.inl rfl
    next hpt =>
      obtain ⟨dd, hdd, h2⟩ := bind_ok h
      simp only [Except.ok.injEq] at hdd
      split at h2
      · simp only [Except.ok.injEq] at h2
        subst h2
        by_cases hwo : writeOk (create_notion_filename withUuid dd.1
            (if withUuid then uu else ""))
        · refine Or.inr ⟨dd.1, dd.2,
            create_notion_filename withUuid dd.1 (if withUuid then uu else ""),
            dinsert f.stem
              (create_notion_filename withUuid dd.1 (if withUuid then uu else ""),
               if withUuid then uu else "") st.page_mapping,
            fun hc => absurd hc hpt,
            fun _ => by rw [← hdd]; exact ⟨rfl, rfl⟩, ?_⟩
          simp [hwo]
        · refine Or.inl ?_
          simp [hwo]
      · simp only [Except.ok.injEq] at h2
        subst h2
        exact Or.inl rfl

/-- every page written during the team fold carries the generated
header -/
theorem teamFold_written {withUuid : Bool} {uuidGen : Nat → String}
    {readOk writeOk : String → Bool} :
    ∀ (fs : List (Collection × MDFile)) (n : Nat) (st st' : TeamState),
    teamFold withUuid uuidGen readOk writeOk n st fs = .ok st' →
    ∀ e ∈ st'.written, e ∈ st.written ∨
      ∃ coll f, ((coll, f) ∈ fs) ∧ ∃ m pn sd,
        (determine_page_type coll f.stem = "日志" →
          convert_date_format f.stem = .ok (pn, sd)) ∧
        (determine_page_type coll f.stem ≠ "日志" → pn = f.stem ∧ sd = "") ∧
        e.2 = create_notion_page_content withUuid m pn
          (determine_page_type coll f.stem) sd f.body (extract_summary f.body) := by
  intro fs
  induction fs with
  | nil =>
    intro n st st' h e he
    simp only [teamFold, Except.ok.injEq] at h
    subst h
    exact Or.inl he
  | cons p rest ih =>
    intro n st st' h e he
    obtain ⟨coll, f⟩ := p
    simp only [teamFold] at h
    obtain ⟨st1, h1, h2⟩ := bind_ok h
    rcases ih (n + 1) st1 st' h2 e he with he1 | he1
    · rcases process_page_file_ok h1 with hw | ⟨pn, sd, fn, m, hj, hnj, hw⟩
      · rw [hw] at he1
        exact Or.inl he1
      · rw [hw] at he1
        rcases List.mem_append.1 he1 with he2 | he2
        · exact Or.inl he2
        · simp only [List.mem_singleton] at he2
          subst he2
          exact Or.inr ⟨coll, f, by simp, m, pn, sd, hj, hnj, rfl⟩
    · obtain ⟨coll2, f2, hmem, rest2⟩ := he1
      exact Or.inr ⟨coll2, f2, by simp [hmem], rest2⟩

/-- C10: in the tabular (team-template) variant, every written page file
is the generated metadata header — title line with the display name,
`Created by`, optional start date, status, page type, optional
summary, then the horizontal rule — followed by the source body with
only cross-references converted; it is never the rewritten body
alone. -/
theorem c10_written_pages_have_header (withUuid : Bool) (uuidGen : Nat → String)
    (readOk writeOk : String → Bool) (pages journals : List MDFile)
    (st' : TeamState)
    (hok : scan_and_convert_pages withUuid uuidGen readOk writeOk pages journals =
      .ok st') :
    ∀ e ∈ st'.written, ∃ coll f,
      ((coll = Collection.page ∧ f ∈ pages) ∨
       (coll = Collection.journal ∧ f ∈ journals)) ∧
      ∃ m pn sd,
        (determine_page_type coll f.stem = "日志" →
          convert_date_format f.stem = .ok (pn, sd)) ∧
        (determine_page_type coll f.stem ≠ "日志" → pn = f.stem ∧ sd = "") ∧
        e.2 = create_notion_page_content withUuid m pn
          (determine_page_type coll f.stem) sd f.body (extract_summary f.body) ∧
        e.2 ≠ convert_links_team withUuid m f.body := by
  intro e he
  unfold scan_and_convert_pages at hok
  rcases teamFold_written _ 0 _ st' hok e he with h | h
  · simp at h
  · obtain ⟨coll, f, hmem, m, pn, sd, hj, hnj, hbody⟩ := h
    refine ⟨coll, f, ?_, m, pn, sd, hj, hnj, hbody, ?_⟩
    · rcases List.mem_append.1 hmem with hm | hm
      · obtain ⟨g, hg, hgf⟩ := List.mem_map.1 hm
        injection hgf with hc hf
        exact Or.inl ⟨hc.symm, by rw [← hf]; exact hg⟩
      · obtain ⟨g, hg, hgf⟩ := List.mem_map.1 hm
        injection hgf with hc hf
        exact Or.inr ⟨hc.symm, by rw [← hf]; exact hg⟩
    · rw [hbody]
      exact page_content_ne_links withUuid m pn
        (determine_page_type coll f.stem) sd f.body (extract_summary f.body)

/-- the concrete final state of a one-page team-template run, used to
instantiate the C10 theorem -/
def c10state : TeamState :=
  match scan_and_convert_pages false (fun _ => "") (fun _ => true)
      (fun _ => true) [MDFile.mk "A" "x"] [] with
  | .ok s => s
  | .error _ => { page_mapping := [], database_entries := [], written := [], logs := [] }

/-- witness for C10: a concrete one-page run succeeds, and every written
page carries the generated header -/
theorem c10_written_pages_have_header_witness :
    scan_and_convert_pages false (fun _ => "") (fun _ => true)
        (fun _ => true) [MDFile.mk "A" "x"] [] = Except.ok c10state ∧
    ∀ e ∈ c10state.written, ∃ coll f,
      ((coll = Collection.page ∧ f ∈ [MDFile.mk "A" "x"]) ∨
       (coll = Collection.journal ∧ f ∈ ([] : List MDFile))) ∧
      ∃ m pn sd,
        (determine_page_type coll f.stem = "日志" →
          convert_date_format f.stem = .ok (pn, sd)) ∧
        (determine_page_type coll f.stem ≠ "日志" → pn = f.stem ∧ sd = "") ∧
        e.2 = create_notion_page_content false m pn
          (determine_page_type coll f.stem) sd f.body (extract_summary f.body) ∧
        e.2 ≠ convert_links_team false m f.body :=
  ⟨rfl, c10_written_pages_have_header false (fun _ => "") (fun _ => true)
    (fun _ => true) [MDFile.mk "A" "x"] [] c10state rfl⟩

end L2N
